import Mathlib

/-!
Verification of the sadbox template toolchain (lexer, parser helpers,
block-inheritance compiler, contextual escaper) against its source.

Each section embeds one part of the Go source as executable Lean
definitions and proves the corresponding claims about it.
-/

set_option maxRecDepth 4096

namespace Sadbox

/-!
## Token queue (template/parse/lexer.go, `queue`)

The lexer buffers emitted tokens in a growable circular FIFO queue.
`tokens` is the backing slice (Go `make([]token, n)` zero-initialises,
modelled by `default`), `head`/`tail` are the circular cursors and
`count` the number of buffered tokens.
-/

structure Queue (α : Type) where
  tokens : List α
  head : Nat
  tail : Nat
  count : Nat
  deriving Repr

/-- `newQueue` returns a new queue for tokens (backing slice of length 10). -/
def newQueue (α : Type) [Inhabited α] : Queue α :=
  ⟨List.replicate 10 default, 0, 0, 0⟩

/-- The resize step inside `queue.push`: a fresh zero-initialised slice of
twice the length receives the wrapped contents re-linearised at the front
(`copy(tokens, q.tokens[q.head:]); copy(tokens[len(q.tokens)-q.head:],
q.tokens[:q.head])`), then `head = 0`, `tail = len(q.tokens)`. -/
def Queue.resize [Inhabited α] (q : Queue α) : Queue α :=
  { tokens := (q.tokens.drop q.head ++ q.tokens.take q.head)
        ++ List.replicate q.tokens.length default
    head := 0
    tail := q.tokens.length
    count := q.count }

/-- The unconditional tail of `queue.push`: write `t` at `tail`, advance
`tail` circularly, bump `count`. -/
def Queue.pushRaw (q : Queue α) (t : α) : Queue α :=
  { q with
      tokens := q.tokens.set q.tail t
      tail := (q.tail + 1) % q.tokens.length
      count := q.count + 1 }

/-- `queue.push`: adds a token, resizing (doubling, re-linearising the wrapped
contents at the front of the new slice) when the buffer is full. -/
def Queue.push [Inhabited α] (q : Queue α) (t : α) : Queue α :=
  if q.head = q.tail ∧ 0 < q.count then (q.resize).pushRaw t else q.pushRaw t

/-- `queue.pop`: removes and returns the token at `head`.  The Go code panics
on an empty queue; that branch returns `default` and leaves the queue
untouched here, and all theorems assume `0 < count`. -/
def Queue.pop [Inhabited α] (q : Queue α) : α × Queue α :=
  if 0 < q.count then
    (q.tokens.getD q.head default,
      { q with head := (q.head + 1) % q.tokens.length, count := q.count - 1 })
  else
    (default, q)

/-- Abstraction: the buffered tokens in FIFO order. -/
def Queue.toList [Inhabited α] (q : Queue α) : List α :=
  (List.range q.count).map
    (fun i => q.tokens.getD ((q.head + i) % q.tokens.length) default)

/-- Structural invariant of the circular buffer. -/
def Queue.Wf (q : Queue α) : Prop :=
  0 < q.tokens.length ∧ q.count ≤ q.tokens.length ∧
    q.head < q.tokens.length ∧ q.tail = (q.head + q.count) % q.tokens.length

theorem Queue.wf_new (α : Type) [Inhabited α] : (newQueue α).Wf := by
  refine ⟨?_, ?_, ?_, ?_⟩ <;> simp [newQueue]

theorem Queue.toList_new (α : Type) [Inhabited α] : (newQueue α).toList = [] := by
  simp [newQueue, toList]

theorem Queue.length_toList [Inhabited α] (q : Queue α) : q.toList.length = q.count := by
  simp [toList]

theorem Queue.count_full {q : Queue α} (h : q.Wf)
    (hfull : q.head = q.tail ∧ 0 < q.count) : q.count = q.tokens.length := by
  obtain ⟨hn, hcle, hh, ht⟩ := h
  obtain ⟨he, hc⟩ := hfull
  have h1 : (q.head + 0) % q.tokens.length = (q.head + q.count) % q.tokens.length := by
    rw [Nat.add_zero, Nat.mod_eq_of_lt hh]
    exact he.trans ht
  have h2 : (0 : Nat) ≡ q.count [MOD q.tokens.length] :=
    Nat.ModEq.add_left_cancel' q.head h1
  have h3 : q.tokens.length ∣ q.count := (Nat.modEq_zero_iff_dvd).mp h2.symm
  exact Nat.le_antisymm hcle (Nat.le_of_dvd hc h3)

theorem Queue.count_lt_of_not_full {q : Queue α} (h : q.Wf)
    (hn : ¬(q.head = q.tail ∧ 0 < q.count)) : q.count < q.tokens.length := by
  obtain ⟨hpos, hcle, hh, ht⟩ := h
  rcases Nat.lt_or_ge q.count q.tokens.length with hlt | hge
  · exact hlt
  · exfalso
    have hceq : q.count = q.tokens.length := Nat.le_antisymm hcle hge
    apply hn
    constructor
    · rw [ht, hceq, Nat.add_mod_right, Nat.mod_eq_of_lt hh]
    · omega

theorem Queue.rot_getElem {α : Type} {l : List α} {h i : Nat}
    (hh : h < l.length) (hi : i < l.length) :
    (l.drop h ++ l.take h)[i]? = l[(h + i) % l.length]? := by
  by_cases hcase : i < l.length - h
  · rw [List.getElem?_append_left (by simp; omega), List.getElem?_drop,
      Nat.mod_eq_of_lt (by omega)]
  · rw [List.getElem?_append_right (by simp; omega), List.getElem?_take,
      if_pos (by simp; omega)]
    rw [Nat.mod_eq_sub_mod (by omega), Nat.mod_eq_of_lt (by omega)]
    congr 1
    simp
    omega

theorem Queue.push_spec [Inhabited α] {q : Queue α} (h : q.Wf) (t : α) :
    (q.push t).Wf ∧ (q.push t).toList = q.toList ++ [t] := by
  obtain ⟨hn, hcle, hh, ht⟩ := h
  by_cases hfull : q.head = q.tail ∧ 0 < q.count
  · -- the push that finds the buffer full: resize then write at the old length
    have hcn : q.count = q.tokens.length :=
      Queue.count_full ⟨hn, hcle, hh, ht⟩ hfull
    have hpush : q.push t = (q.resize).pushRaw t := by
      rw [Queue.push, if_pos hfull]
    have hrotlen : (q.tokens.drop q.head ++ q.tokens.take q.head).length
        = q.tokens.length := by simp; omega
    have hlen2 : ((q.tokens.drop q.head ++ q.tokens.take q.head)
        ++ List.replicate q.tokens.length (default : α)).length
        = 2 * q.tokens.length := by simp; omega
    have hq : q.resize.pushRaw t = Queue.mk
        (((q.tokens.drop q.head ++ q.tokens.take q.head)
          ++ List.replicate q.tokens.length default).set q.tokens.length t)
        0
        ((q.tokens.length + 1) % ((q.tokens.drop q.head ++ q.tokens.take q.head)
          ++ List.replicate q.tokens.length (default : α)).length)
        (q.count + 1) := rfl
    rw [hpush, hq]
    constructor
    · refine ⟨?_, ?_, ?_, ?_⟩
      · show 0 < (List.set _ _ _).length
        rw [List.length_set, hlen2]; omega
      · show q.count + 1 ≤ (List.set _ _ _).length
        rw [List.length_set, hlen2]; omega
      · show 0 < (List.set _ _ _).length
        rw [List.length_set, hlen2]; omega
      · show (q.tokens.length + 1) % _ = (0 + (q.count + 1)) % (List.set _ _ _).length
        rw [List.length_set, hlen2, Nat.zero_add, hcn]
    · simp only [Queue.toList, List.length_set, hlen2, hcn]
      rw [List.range_succ, List.map_append, List.map_singleton]
      congr 1
      · apply List.map_congr_left
        intro i hi
        have hi' : i < q.tokens.length := List.mem_range.mp hi
        rw [List.getD_eq_getElem?_getD, List.getD_eq_getElem?_getD,
          Nat.zero_add, Nat.mod_eq_of_lt (by omega),
          List.getElem?_set_ne (by omega),
          List.getElem?_append_left (by rw [hrotlen]; omega),
          Queue.rot_getElem hh hi']
      · rw [List.getD_eq_getElem?_getD, Nat.zero_add,
          Nat.mod_eq_of_lt (by omega),
          List.getElem?_set_self (by rw [hlen2]; omega)]
        rfl
  · -- room available: write at `tail` and advance it
    have hclt : q.count < q.tokens.length :=
      Queue.count_lt_of_not_full ⟨hn, hcle, hh, ht⟩ hfull
    have htlt : q.tail < q.tokens.length := by
      rw [ht]; exact Nat.mod_lt _ hn
    have hpush : q.push t = q.pushRaw t := by
      rw [Queue.push, if_neg hfull]
    rw [hpush]
    constructor
    · refine ⟨?_, ?_, ?_, ?_⟩ <;>
        simp only [Queue.pushRaw, List.length_set]
      · omega
      · omega
      · exact hh
      · rw [ht, Nat.mod_add_mod, Nat.add_assoc]
    · simp only [Queue.pushRaw, Queue.toList, List.length_set]
      rw [List.range_succ, List.map_append, List.map_singleton]
      congr 1
      · apply List.map_congr_left
        intro i hi
        have hi' : i < q.count := List.mem_range.mp hi
        have hne : q.tail ≠ (q.head + i) % q.tokens.length := by
          intro heq
          have hmeq : (q.head + q.count) % q.tokens.length
              = (q.head + i) % q.tokens.length := by rw [← ht, heq]
          have hcanc : q.count % q.tokens.length = i % q.tokens.length :=
            Nat.ModEq.add_left_cancel' q.head hmeq
          rw [Nat.mod_eq_of_lt (by omega), Nat.mod_eq_of_lt (by omega)] at hcanc
          omega
        rw [List.getD_eq_getElem?_getD, List.getD_eq_getElem?_getD,
          List.getElem?_set_ne hne]
      · rw [List.getD_eq_getElem?_getD]
        have hidx : (q.head + q.count) % q.tokens.length = q.tail := ht.symm
        rw [hidx, List.getElem?_set_self htlt]
        rfl

theorem Queue.pop_spec [Inhabited α] {q : Queue α} (h : q.Wf) (hc : 0 < q.count) :
    q.pop.1 = q.toList.getD 0 default ∧ q.pop.2.Wf ∧
      q.pop.2.toList = q.toList.tail := by
  obtain ⟨hn, hcle, hh, ht⟩ := h
  have hc1 : q.count - 1 + 1 = q.count := by omega
  refine ⟨?_, ⟨?_, ?_, ?_, ?_⟩, ?_⟩
  · simp only [Queue.pop, if_pos hc, Queue.toList]
    rw [← hc1, List.range_succ_eq_map]
    simp [Nat.mod_eq_of_lt hh]
  · simp [Queue.pop, hc]
    omega
  · simp [Queue.pop, hc]
    omega
  · simp only [Queue.pop, if_pos hc]
    exact Nat.mod_lt _ hn
  · simp only [Queue.pop, if_pos hc]
    rw [ht, Nat.mod_add_mod]
    congr 1
    omega
  · simp only [Queue.pop, if_pos hc, Queue.toList]
    conv_rhs => rw [← hc1, List.range_succ_eq_map]
    simp only [List.map_cons, List.tail_cons, List.map_map]
    apply List.map_congr_left
    intro i _
    simp only [Function.comp]
    rw [Nat.mod_add_mod]
    congr 2
    omega

/-- A queue operation: the lexer either pushes an emitted token or pops one. -/
inductive QOp (α : Type) where
  | push (t : α)
  | pop
  deriving Repr, DecidableEq

/-- Run a sequence of operations on the circular queue, collecting the popped
tokens in order. -/
def runQueue [Inhabited α] : List (QOp α) → Queue α → Queue α × List α
  | [], q => (q, [])
  | .push t :: ops, q => runQueue ops (q.push t)
  | .pop :: ops, q =>
      let r := runQueue ops q.pop.2
      (r.1, q.pop.1 :: r.2)

/-- The FIFO reference model: a plain list, `push` appends at the back,
`pop` removes at the front. -/
def runSpec [Inhabited α] : List (QOp α) → List α → List α × List α
  | [], m => (m, [])
  | .push t :: ops, m => runSpec ops (m ++ [t])
  | .pop :: ops, m =>
      let r := runSpec ops m.tail
      (r.1, m.headI :: r.2)

/-- A sequence of operations is legal when no pop happens on an empty buffer;
`k` is the current number of buffered tokens. -/
def legalOps : List (QOp α) → Nat → Bool
  | [], _ => true
  | .push _ :: ops, k => legalOps ops (k + 1)
  | .pop :: ops, k => decide (0 < k) && legalOps ops (k - 1)

/-- Count of pushes in a sequence of operations. -/
def numPushes : List (QOp α) → Nat
  | [] => 0
  | .push _ :: ops => numPushes ops + 1
  | .pop :: ops => numPushes ops

/-- Count of pops in a sequence of operations. -/
def numPops : List (QOp α) → Nat
  | [] => 0
  | .push _ :: ops => numPops ops
  | .pop :: ops => numPops ops + 1

theorem runSpec_length [Inhabited α] (ops : List (QOp α)) (m : List α)
    (h : legalOps ops m.length = true) :
    (runSpec ops m).1.length + numPops ops = m.length + numPushes ops := by
  induction ops generalizing m with
  | nil => simp [runSpec, numPushes, numPops]
  | cons op ops ih =>
    cases op with
    | push t =>
      simp only [runSpec, numPushes, numPops]
      have := ih (m ++ [t]) (by simpa [legalOps] using h)
      simp at this
      omega
    | pop =>
      simp only [legalOps, Bool.and_eq_true, decide_eq_true_eq] at h
      simp only [runSpec, numPushes, numPops]
      have hm : m.tail.length = m.length - 1 := by simp
      have := ih m.tail (by rw [hm]; exact h.2)
      omega

theorem runQueue_sim [Inhabited α] (ops : List (QOp α)) (q : Queue α)
    (hw : q.Wf) (hleg : legalOps ops q.toList.length = true) :
    (runQueue ops q).1.Wf ∧
      (runQueue ops q).1.toList = (runSpec ops q.toList).1 ∧
      (runQueue ops q).2 = (runSpec ops q.toList).2 := by
  induction ops generalizing q with
  | nil => exact ⟨hw, rfl, rfl⟩
  | cons op ops ih =>
    cases op with
    | push t =>
      obtain ⟨hw', hlist⟩ := Queue.push_spec hw t
      have hlen : (q.push t).toList.length = q.toList.length + 1 := by
        rw [hlist]; simp
      have hleg' : legalOps ops (q.push t).toList.length = true := by
        rw [hlen]; simpa [legalOps] using hleg
      obtain ⟨h1, h2, h3⟩ := ih (q.push t) hw' hleg'
      refine ⟨h1, ?_, ?_⟩
      · simpa [runQueue, runSpec, hlist] using h2
      · simpa [runQueue, runSpec, hlist] using h3
    | pop =>
      simp only [legalOps, Bool.and_eq_true, decide_eq_true_eq] at hleg
      have hc : 0 < q.count := by
        have := q.length_toList
        omega
      obtain ⟨hv, hw', hlist⟩ := Queue.pop_spec hw hc
      have hlen : q.pop.2.toList.length = q.toList.length - 1 := by
        rw [hlist]; simp
      have hleg' : legalOps ops q.pop.2.toList.length = true := by
        rw [hlen]; exact hleg.2
      obtain ⟨h1, h2, h3⟩ := ih q.pop.2 hw' hleg'
      refine ⟨h1, ?_, ?_⟩
      · simpa [runQueue, runSpec, hlist] using h2
      · have hhead : q.pop.1 = q.toList.headI := by
          rw [hv]
          cases hq : q.toList with
          | nil =>
            exfalso
            have := q.length_toList
            rw [hq] at this
            simp at this
            omega
          | cons a l => simp
        simp only [runQueue, runSpec]
        rw [hhead, h3, hlist]

/-- C10: over any legal sequence of pushes and pops the lexer's growable
circular token queue behaves exactly like the plain FIFO list model
(pops return tokens in push order, none dropped, duplicated or reordered,
including across resizes), and the final `count` equals the number of
pushes minus the number of pops. -/
theorem queue_is_faithful_fifo [Inhabited α] (ops : List (QOp α))
    (hleg : legalOps ops 0 = true) :
    (runQueue ops (newQueue α)).2 = (runSpec ops []).2 ∧
      (runQueue ops (newQueue α)).1.toList = (runSpec ops []).1 ∧
      (runQueue ops (newQueue α)).1.count = numPushes ops - numPops ops := by
  have h0 : (newQueue α).toList = [] := Queue.toList_new α
  have hleg' : legalOps ops (newQueue α).toList.length = true := by
    rw [h0]; simpa using hleg
  obtain ⟨hwf, hlist, hout⟩ := runQueue_sim ops (newQueue α) (Queue.wf_new α) hleg'
  rw [h0] at hlist hout
  refine ⟨hout, hlist, ?_⟩
  have hlen := runSpec_length ops [] (by simpa using hleg)
  have hcount := (runQueue ops (newQueue α)).1.length_toList
  rw [hlist] at hcount
  simp at hlen
  omega

/-- A concrete operation sequence that overfills the initial 10-slot buffer,
forcing the resize path: 12 pushes followed by 12 pops. -/
def qOpsResize : List (QOp Nat) :=
  ((List.range 12).map QOp.push) ++ List.replicate 12 QOp.pop

/-- Witness for C10 at a concrete input that exercises the resize. -/
theorem queue_is_faithful_fifo_witness :
    (runQueue qOpsResize (newQueue Nat)).2 = (runSpec qOpsResize []).2 ∧
      (runQueue qOpsResize (newQueue Nat)).1.toList = (runSpec qOpsResize []).1 ∧
      (runQueue qOpsResize (newQueue Nat)).1.count
        = numPushes qOpsResize - numPops qOpsResize :=
  queue_is_faithful_fifo qOpsResize (by decide)

/-!
## Lexer cursor and the number scanner (template/parse/state.go, first
lexer variant)

The Go lexer walks a string with a pinned token start (`pin`), a scan
cursor (`pos`) and the width of the last decoded rune (`width`).  Runes
are modelled as `Char`, so every rune has width 1.
-/

/-- The first lexer variant's cursor (`lexer` in lexer.go); the token queue
is kept separately.  The `define` flag is read by `lexFile` (state.go) but
missing from the struct declaration in lexer.go — a fragment inconsistency —
so it is modelled from that single use, initially `false`. -/
structure Lx where
  input : List Char
  pin : Nat
  pos : Nat
  width : Nat
  define : Bool
  deriving Repr, DecidableEq

/-- A fresh cursor over an input (Go `newLexer` after the `\r\n`
normalisation, which is the identity on the inputs considered here). -/
def lxInit (s : String) : Lx := ⟨s.toList, 0, 0, 0, false⟩

/-- `lexer.nextRune`: consume and return the next rune, or `none` at
end of input (Go's `eof`). -/
def Lx.nextRune (l : Lx) : Option Char × Lx :=
  if h : l.pos < l.input.length then
    (some (l.input.get ⟨l.pos, h⟩), { l with pos := l.pos + 1, width := 1 })
  else
    (none, { l with width := 0 })

/-- `lexer.backup`: step back one rune (only valid once per `nextRune`). -/
def Lx.backup (l : Lx) : Lx :=
  { l with pos := l.pos - l.width }

/-- `lexer.accept`: consume the next rune iff it equals `r`. -/
def Lx.accept (l : Lx) (r : Char) : Bool × Lx :=
  match l.nextRune with
  | (some c, l') => if c = r then (true, l') else (false, l'.backup)
  | (none, l') => (false, l'.backup)

/-- `lexer.acceptOne`: consume the next rune iff it belongs to `valid`. -/
def Lx.acceptOne (l : Lx) (valid : List Char) : Lx :=
  match l.nextRune with
  | (some c, l') => if c ∈ valid then l' else l'.backup
  | (none, l') => l'.backup

/-- `lexer.acceptMany`: consume the maximal run of runes from `valid` and
return it (the Go loop of `nextRune` calls followed by one `backup`). -/
def Lx.acceptMany (l : Lx) (valid : List Char) : List Char × Lx :=
  let consumed := (l.input.drop l.pos).takeWhile (fun c => c ∈ valid)
  (consumed,
    { l with
        pos := l.pos + consumed.length
        width := if l.pos + consumed.length < l.input.length then 1 else 0 })

/-- `lexer.acceptPrefix`: consume `p` iff the input continues with it. -/
def Lx.acceptPrefixOf (l : Lx) (p : List Char) : Bool × Lx :=
  if l.pos < l.input.length ∧ p.isPrefixOf (l.input.drop l.pos) then
    (true, { l with pos := l.pos + p.length, width := p.length })
  else
    (false, l)

/-- Token types of the first lexer variant (state.go / the first `tokenType`
block of parse.go). -/
inductive TokenT where
  | error | eofT | ident | var | comment | text | rawText
  | bool | float | int | null | string
  | elseT | endT | ifT | namespace | template | range | raw | sp | withT
  | neg | notT | notEq | star | starEq | slash | slashEq
  | percent | percentEq | plus | plusEq | minus | minusEq
  | eq | eqEq | gt | gtEq | lt | ltEq | orT | andT | question
  | colon | colonEq
  | dollar | leftParen | rightParen | leftBrace | rightBrace
  | leftBracket | rightBracket
  deriving Repr, DecidableEq

def sDecDigits : List Char := "0123456789".toList

def sHexDigits : List Char := "0123456789ABCDEF".toList

def sAlphaNum : List Char :=
  "abcdefghijklmnopqrstuvwxyzABCDEFGHIJKLMNOPQRSTUVWXYZ0123456789".toList

/-- `scanNumber` (state.go, first variant): classify a number at the cursor
as `tokenInt` or `tokenFloat`; the `Bool` is the `ok` flag (`false` means
bad number syntax, reported by `lexNumber` as a lex error). -/
def scanNumber (l : Lx) : TokenT × Bool × Lx :=
  let finish := fun (t : TokenT) (l : Lx) =>
    -- Next thing must not be alphanumeric.
    let (suf, l) := l.acceptMany sAlphaNum
    if suf.isEmpty then (t, true, l) else (t, false, l)
  match l.acceptPrefixOf ['0', 'x'] with
  | (true, l) =>
    -- Hexadecimal.
    let (ds, l) := l.acceptMany sHexDigits
    if ds.isEmpty then (.int, false, l)
    else
      match l.accept '.' with
      | (true, l) => (.int, false, l)    -- no dots for hexadecimals
      | (false, l) => finish .int l
  | (false, l) =>
    -- Decimal.
    let (ds, l) := l.acceptMany sDecDigits
    if ds.isEmpty then (.int, false, l)
    else
      let afterDot :=
        match l.accept '.' with
        | (true, l) =>
          -- Float: requires a digit after the dot (an early return still
          -- carries `t = tokenInt`, since `t` is only updated afterwards).
          let (fs, l) := l.acceptMany sDecDigits
          if fs.isEmpty then (TokenT.int, false, l)
          else (TokenT.float, true, l)
        | (false, l) =>
          -- Integer: can't start with 0.
          if l.input.getD l.pin '\x00' = '0' then (TokenT.int, false, l)
          else (TokenT.int, true, l)
      match afterDot with
      | (t, false, l) => (t, false, l)
      | (t, true, l) =>
        match l.accept 'e' with
        | (true, l) =>
          let l := l.acceptOne ['+', '-']
          let (es, l) := l.acceptMany sDecDigits
          if es.isEmpty then (t, false, l)
          else finish .float l
        | (false, l) => finish t l

/-!
## Second lexer variant (`Scanner` in state.go): number scanning
-/

/-- Token types of the second lexer variant (`TokenType` in state.go). -/
inductive TokenTy2 where
  | eofT | error
  | boolT | float | int | nilT | stringT
  | ident | tag | endT | funcT | text
  | lDelim | rDelim | lParen | rParen | lBrace | rBrace
  | lBracket | rBracket | dot | pipe | comma | colon | notT
  | mul | div | mod | add | sub | eq | colonEq
  | mulEq | divEq | modEq | addEq | subEq | eqEq | notEq
  | gt | lt | gtEq | ltEq | andT | orT | char
  deriving Repr, DecidableEq

/-- The `Scanner` state (second lexer variant); the token channel and
token stack are not needed for the number scanner. -/
structure Sc where
  src : List Char
  pin : Nat
  pos : Nat
  width : Nat
  lDelim : List Char
  rDelim : List Char
  braces : List (List Char)
  deriving Repr, DecidableEq

/-- A fresh scanner over an input, with the default `{`/`}` delimiters. -/
def scInit (s : String) : Sc := ⟨s.toList, 0, 0, 0, ['{'], ['}'], []⟩

/-- `Scanner.Next`: consume and return the next rune (`none` is Go's EOF). -/
def Sc.next (s : Sc) : Option Char × Sc :=
  if h : s.pos < s.src.length then
    (some (s.src.get ⟨s.pos, h⟩), { s with pos := s.pos + 1, width := 1 })
  else
    (none, { s with width := 0 })

/-- `Scanner.backup`: step back one rune. -/
def Sc.backup (s : Sc) : Sc :=
  { s with pos := s.pos - s.width }

/-- `Scanner.Peek`: return the next rune without consuming it. -/
def Sc.peek (s : Sc) : Option Char :=
  (s.next).1

/-- `isSpace` (second variant). -/
def isSpaceC (r : Char) : Bool :=
  r = ' ' ∨ r = '\t' ∨ r = '\n' ∨ r = '\r'

/-- `isSymbol`: a recognised symbol character. -/
def isSymbolC (r : Char) : Bool :=
  r ∈ juggleSymbols
where juggleSymbols : List Char :=
  [',', '.', '*', '/', '%', '+', '-', '=', ':', '!', '<', '>',
   '&', '|', '(', ')', '[', ']'] ++ ['{', '}']

/-- `isDecimal`. -/
def isDecimalC : Option Char → Bool
  | some r => '0' ≤ r ∧ r ≤ '9'
  | none => false

/-- `isHexadecimal`. -/
def isHexadecimalC : Option Char → Bool
  | some r => ('0' ≤ r ∧ r ≤ '9') ∨ ('A' ≤ r ∧ r ≤ 'F')
  | none => false

/-- `atRightDelim`: at a right delimiter with no open braces. -/
def Sc.atRightDelim (s : Sc) : Bool :=
  s.braces.isEmpty && s.rDelim.isPrefixOf (s.src.drop s.pos)

/-- `atNumberTerminator`: the next rune may validly follow a number
(spaces and most symbols, excluding dot and open braces). -/
def Sc.atNumberTerminator (s : Sc) : Bool :=
  match s.peek with
  | some r =>
    if isSpaceC r then true
    else if isSymbolC r then
      if r = '.' ∨ r = '(' ∨ r = '[' ∨ r = '{' then false else true
    else s.atRightDelim
  | none => s.atRightDelim

/-- The `for isDecimal(r) { r = s.Next() }` loop of `scanNumberType`,
with explicit fuel (the loop consumes one rune per iteration, so
`src.length + 2` fuel always suffices). -/
def scanDecLoop : Nat → Option Char → Sc → Option Char × Sc
  | 0, r, s => (r, s)
  | fuel + 1, r, s =>
    if isDecimalC r then
      let (r', s') := s.next
      scanDecLoop fuel r' s'
    else (r, s)

/-- The `for isHexadecimal(s.Next()) {}` loop of `scanNumberType`. -/
def scanHexLoop : Nat → Sc → Sc
  | 0, s => s
  | fuel + 1, s =>
    let (r, s') := s.next
    if isHexadecimalC r then scanHexLoop fuel s' else s'

/-- `scanFractionOrExponent`: scan a fraction or exponent part of a float;
the next character is expected to be `.` or `e`. -/
def scanFractionOrExponent (s : Sc) : TokenTy2 × Bool × Sc :=
  let step :=
    match s.next with
    | (some '.', s) => some (s.next)
    | (some 'e', s) =>
      let (r, s) := s.next
      if r = some '-' ∨ r = some '+' then some (s.next) else some (r, s)
    | (_, _) => none
  match step with
  | none => (.error, false, (s.next).2)
  | some (r, s) =>
    -- the loop body runs (setting seenDecimal) iff the first rune is decimal
    let seenDecimal := isDecimalC r
    let (_, s) := scanDecLoop (s.src.length + 2) r s
    let s := s.backup
    if !seenDecimal || !s.atNumberTerminator then (.error, false, s)
    else (.float, true, s)

/-- `scanNumberType` (second variant): after an initial `0` only `x`
(hexadecimal) or a fraction/exponent may follow. -/
def scanNumberType (s : Sc) : TokenTy2 × Bool × Sc :=
  match s.next with
  | (some '0', s) =>
    -- hexadecimal int or float
    match s.next with
    | (some 'x', s) =>
      let s := (scanHexLoop (s.src.length + 2) s).backup
      if s.atNumberTerminator then (.int, true, s) else (.error, false, s)
    | (_, s) =>
      -- float: not many options after 0, only '.' or 'e'
      scanFractionOrExponent s.backup
  | (r, s) =>
    -- decimal int or float
    let (r', s) := scanDecLoop (s.src.length + 2) r s
    let s := s.backup
    if r' ≠ some '.' ∧ r' ≠ some 'e' then
      if s.atNumberTerminator then (.int, true, s) else (.error, false, s)
    else scanFractionOrExponent s

/-- C4: the first variant's number scanner classifies literals exactly as
claimed: `0x1A2B` is an integer token; `0.5`, `3e-3`, `6.02e23` are float
tokens; `0123` (decimal, leading zero, length > 1) is rejected as a bad
number; and a digit run immediately followed by a letter (`123abc`) is a
lex error. -/
theorem scanNumber_boundary_classification :
    (scanNumber (lxInit "0x1A2B")).1 = .int
      ∧ (scanNumber (lxInit "0x1A2B")).2.1 = true
      ∧ (scanNumber (lxInit "0.5")).1 = .float
      ∧ (scanNumber (lxInit "0.5")).2.1 = true
      ∧ (scanNumber (lxInit "3e-3")).1 = .float
      ∧ (scanNumber (lxInit "3e-3")).2.1 = true
      ∧ (scanNumber (lxInit "6.02e23")).1 = .float
      ∧ (scanNumber (lxInit "6.02e23")).2.1 = true
      ∧ (scanNumber (lxInit "0123")).2.1 = false
      ∧ (scanNumber (lxInit "123abc")).2.1 = false := by
  decide

theorem Lx.accept_eq_false {l : Lx} {r : Char}
    (h : l.input.get? l.pos ≠ some r) :
    l.accept r
      = (false, { l with width := if l.pos < l.input.length then 1 else 0 }) := by
  by_cases hlt : l.pos < l.input.length
  · have hnext : l.nextRune
        = (some (l.input.get ⟨l.pos, hlt⟩), { l with pos := l.pos + 1, width := 1 }) := by
      rw [Lx.nextRune, dif_pos hlt]
    have hne : l.input.get ⟨l.pos, hlt⟩ ≠ r := by
      intro hc
      exact h (by rw [List.get?_eq_get hlt, hc])
    rw [Lx.accept, hnext]
    simp only [if_neg hne, Lx.backup, if_pos hlt]
    simp
  · have hnext : l.nextRune = (none, { l with width := 0 }) := by
      rw [Lx.nextRune, dif_neg hlt]
    rw [Lx.accept, hnext]
    simp only [Lx.backup, if_neg hlt]
    simp

/-- C5: the first lexer variant rejects every decimal literal whose first
character is `0` when no fractional part follows the digit run (in
particular the bare literal `0`), while still accepting the leading-zero
float `0.5`; the second variant also fails on a bare `0`, since after the
initial `0` it requires a `.` or `e` continuation. -/
theorem scanNumber_bare_zero_rejected :
    (∀ s : List Char, s.head? = some '0' →
        ¬ (['0', 'x'].isPrefixOf s) →
        s.get? ((s.takeWhile (fun c => c ∈ sDecDigits)).length) ≠ some '.' →
        (scanNumber ⟨s, 0, 0, 0, false⟩).2.1 = false)
      ∧ (scanNumber (lxInit "0")).2.1 = false
      ∧ (scanNumber (lxInit "0.5")).1 = .float
      ∧ (scanNumber (lxInit "0.5")).2.1 = true
      ∧ (scanNumberType (scInit "0")).1 = .error
      ∧ (scanNumberType (scInit "0")).2.1 = false := by
  refine ⟨?_, by decide, by decide, by decide, by decide, by decide⟩
  intro s h0 hpre hdot
  cases s with
  | nil => simp at h0
  | cons a s' =>
    have ha : a = '0' := by simpa using h0
    subst ha
    have h1 : (⟨'0' :: s', 0, 0, 0, false⟩ : Lx).acceptPrefixOf ['0', 'x']
        = (false, ⟨'0' :: s', 0, 0, 0, false⟩) := by
      rw [Lx.acceptPrefixOf, if_neg]
      intro hcon
      exact hpre (by simpa using hcon.2)
    have h2 : (⟨'0' :: s', 0, 0, 0, false⟩ : Lx).acceptMany sDecDigits
        = ('0' :: s'.takeWhile (fun c => c ∈ sDecDigits),
            ⟨'0' :: s', 0, (s'.takeWhile (fun c => c ∈ sDecDigits)).length + 1,
              if (s'.takeWhile (fun c => c ∈ sDecDigits)).length + 1
                  < s'.length + 1 then 1 else 0, false⟩) := by
      have hz : (fun c => decide (c ∈ sDecDigits)) '0' = true := by decide
      rw [Lx.acceptMany]
      simp only [List.drop_zero, List.takeWhile_cons, hz, if_true]
      simp
    have hdot' : ('0' :: s').get?
        ((s'.takeWhile (fun c => c ∈ sDecDigits)).length + 1) ≠ some '.' := by
      have hz : (fun c => decide (c ∈ sDecDigits)) '0' = true := by decide
      have hlen : (('0' :: s').takeWhile (fun c => c ∈ sDecDigits)).length
          = (s'.takeWhile (fun c => c ∈ sDecDigits)).length + 1 := by
        simp [List.takeWhile_cons, hz]
      intro hc
      exact hdot (by rw [hlen]; exact hc)
    have h3 := Lx.accept_eq_false
      (l := ⟨'0' :: s', 0, (s'.takeWhile (fun c => c ∈ sDecDigits)).length + 1,
        if (s'.takeWhile (fun c => c ∈ sDecDigits)).length + 1
            < s'.length + 1 then 1 else 0, false⟩) (r := '.') hdot'
    rw [scanNumber, h1]
    simp only [h2, h3]
    norm_num

/-- Witness for C5: the universal leading-zero rejection applied to the
bare literal `0`. -/
theorem scanNumber_bare_zero_rejected_witness :
    (scanNumber ⟨['0'], 0, 0, 0, false⟩).2.1 = false :=
  scanNumber_bare_zero_rejected.1 ['0'] (by decide) (by decide) (by decide)

/-!
## Parse-tree nodes (nodes file, `part_005`) and fill validation

Pipelines carry declarations and commands that none of the embedded
operations inspect, so `PipeDat` records only the line number.
Branch bodies are the `Nodes` lists of the corresponding `*ListNode`;
`ElseList` is `Option` because it is a nil pointer when no `{{else}}`
was parsed.
-/

structure PipeDat where
  line : Nat
  deriving Repr, DecidableEq

/-- Parse-tree nodes (`TextNode`, `ActionNode`, `BlockNode`, `FillNode`,
`IfNode`, `RangeNode`, `WithNode`, `TemplateNode`, `ListNode`).  `DefineNode`
is kept separately since it only occurs at top level. -/
inductive PNode where
  | text (s : String)
  | action (line : Nat) (pipe : PipeDat)
  | blockN (line : Nat) (name : String) (pipe : Option PipeDat) (list : List PNode)
  | fillN (line : Nat) (name : String) (pipe : Option PipeDat) (list : List PNode)
  | ifN (line : Nat) (pipe : PipeDat) (list : List PNode) (elseList : Option (List PNode))
  | rangeN (line : Nat) (pipe : PipeDat) (list : List PNode) (elseList : Option (List PNode))
  | withN (line : Nat) (pipe : PipeDat) (list : List PNode) (elseList : Option (List PNode))
  | templateN (line : Nat) (name : String) (pipe : Option PipeDat)
  | listN (nodes : List PNode)
  deriving Repr

/-- Outcome of `FillNode.validate`: success, a recoverable
`panic(fmt.Errorf("invalid action inside <fill>: %s", v))` carrying the
offending node, or the runtime nil-pointer dereference that happens when
`validate` ranges over a nil `*ListNode`. -/
inductive Val where
  | ok
  | invalid (n : PNode)
  | nilPanic
  deriving Repr

mutual

/-- `FillNode.validate`: walk a node list, panicking at the first node
`isValid` rejects. -/
def validateL : List PNode → Val
  | [] => .ok
  | v :: rest =>
    match isValidN v with
    | .inl p => p
    | .inr true => validateL rest
    | .inr false => .invalid v

/-- `f.validate(n.ElseList)` where `ElseList` may be a nil `*ListNode`:
ranging over `n.Nodes` on a nil pointer is a runtime panic. -/
def validateOpt : Option (List PNode) → Val
  | none => .nilPanic
  | some l => validateL l

/-- `FillNode.isValid`: `inr b` is the returned boolean, `inl p` a panic
propagating from a nested `validate` call. -/
def isValidN : PNode → Val ⊕ Bool
  | .blockN _ _ _ _ => .inr true
  | .listN ns =>
    match validateL ns with
    | .ok => .inr true
    | p => .inl p
  | .ifN _ _ l e =>
    match validateL l with
    | .ok =>
      match validateOpt e with
      | .ok => .inr true
      | p => .inl p
    | p => .inl p
  | .withN _ _ l e =>
    match validateL l with
    | .ok =>
      match validateOpt e with
      | .ok => .inr true
      | p => .inl p
    | p => .inl p
  | .rangeN _ _ l e =>
    match validateL l with
    | .ok =>
      match validateOpt e with
      | .ok => .inr true
      | p => .inl p
    | p => .inl p
  | .text s => .inr (s.toList.all (fun c => c.isWhitespace))
  | .action _ _ => .inr false
  | .fillN _ _ _ _ => .inr false
  | .templateN _ _ _ => .inr false

end

/-- What `parser.recover` turns a `fillControl` validation outcome into:
an error-value panic is recovered into a returned error, but a
`runtime.Error` is re-panicked and escapes `Parse`. -/
inductive ParseOutcome where
  | returned
  | errReturned
  | panicked
  deriving Repr, DecidableEq

def recoverOutcome : Val → ParseOutcome
  | .ok => .returned
  | .invalid _ => .errReturned
  | .nilPanic => .panicked

/-- The whitelist stated by the spec for nodes directly inside a fill body:
block, if, with, range, or whitespace-only text (the `*ListNode` case of the
type switch is unreachable from the parser, which never places a raw list
in a body). -/
def whitelistShape : PNode → Bool
  | .blockN _ _ _ _ => true
  | .listN _ => true
  | .ifN _ _ _ _ => true
  | .withN _ _ _ _ => true
  | .rangeN _ _ _ _ => true
  | .text s => s.toList.all (fun c => c.isWhitespace)
  | _ => false

theorem isValidN_ne_inl_ok (v : PNode) : isValidN v ≠ .inl .ok := by
  cases v with
  | listN ns =>
    rw [isValidN]
    cases validateL ns <;> simp
  | ifN a b l e =>
    rw [isValidN]
    cases validateL l with
    | ok => cases validateOpt e <;> simp
    | invalid m => simp
    | nilPanic => simp
  | withN a b l e =>
    rw [isValidN]
    cases validateL l with
    | ok => cases validateOpt e <;> simp
    | invalid m => simp
    | nilPanic => simp
  | rangeN a b l e =>
    rw [isValidN]
    cases validateL l with
    | ok => cases validateOpt e <;> simp
    | invalid m => simp
    | nilPanic => simp
  | text s => rw [isValidN]; simp
  | action a b => rw [isValidN]; simp
  | blockN a b c d => rw [isValidN]; simp
  | fillN a b c d => rw [isValidN]; simp
  | templateN a b c => rw [isValidN]; simp

theorem validateL_ok_shape (l : List PNode) :
    validateL l = .ok → ∀ n ∈ l, whitelistShape n = true := by
  induction l with
  | nil => intro _ n hn; cases hn
  | cons v rest ih =>
    intro hok n hn
    rw [validateL] at hok
    cases hiv : isValidN v with
    | inl p =>
      rw [hiv] at hok
      simp at hok
      rw [hok] at hiv
      exact absurd hiv (isValidN_ne_inl_ok v)
    | inr b =>
      rw [hiv] at hok
      cases b with
      | false => simp at hok
      | true =>
        rcases List.mem_cons.mp hn with heq | hmem
        · subst heq
          cases n <;> simp_all [isValidN, whitelistShape]
        · exact ih hok n hmem

theorem PNode.one_le_sizeOf (v : PNode) : 1 ≤ sizeOf v := by
  cases v <;> simp <;> omega

theorem validateL_invalid_shape :
    ∀ (k : Nat) (l : List PNode), sizeOf l ≤ k →
      ∀ n, validateL l = .invalid n → whitelistShape n = false := by
  intro k
  induction k with
  | zero =>
    intro l hl
    cases l with
    | nil => intro n hv; rw [validateL] at hv; cases hv
    | cons v rest => simp at hl
  | succ k ih =>
    intro l hl n hv
    cases l with
    | nil => rw [validateL] at hv; cases hv
    | cons v rest =>
      rw [validateL] at hv
      have hsz : sizeOf v + sizeOf rest ≤ k + 1 := by
        simp at hl
        omega
      cases hiv : isValidN v with
      | inl p =>
        rw [hiv] at hv
        simp at hv
        rw [hv] at hiv
        -- the panic came from a nested validate call inside `v`
        cases v with
        | listN ns =>
          rw [isValidN] at hiv
          cases hns : validateL ns with
          | ok => rw [hns] at hiv; cases hiv
          | invalid m =>
            rw [hns] at hiv
            simp at hiv
            cases hiv
            refine ih ns ?_ n hns
            simp at hsz
            omega
          | nilPanic => rw [hns] at hiv; simp at hiv
        | ifN line pipe lst e =>
          rw [isValidN] at hiv
          cases hlst : validateL lst with
          | ok =>
            rw [hlst] at hiv
            cases e with
            | none => simp [validateOpt] at hiv
            | some l2 =>
              cases hl2 : validateL l2 with
              | ok => simp [validateOpt, hl2] at hiv
              | invalid m =>
                simp [validateOpt, hl2] at hiv
                cases hiv
                refine ih l2 ?_ n hl2
                simp at hsz
                omega
              | nilPanic => simp [validateOpt, hl2] at hiv
          | invalid m =>
            rw [hlst] at hiv
            simp at hiv
            cases hiv
            refine ih lst ?_ n hlst
            simp at hsz
            omega
          | nilPanic => rw [hlst] at hiv; simp at hiv
        | withN line pipe lst e =>
          rw [isValidN] at hiv
          cases hlst : validateL lst with
          | ok =>
            rw [hlst] at hiv
            cases e with
            | none => simp [validateOpt] at hiv
            | some l2 =>
              cases hl2 : validateL l2 with
              | ok => simp [validateOpt, hl2] at hiv
              | invalid m =>
                simp [validateOpt, hl2] at hiv
                cases hiv
                refine ih l2 ?_ n hl2
                simp at hsz
                omega
              | nilPanic => simp [validateOpt, hl2] at hiv
          | invalid m =>
            rw [hlst] at hiv
            simp at hiv
            cases hiv
            refine ih lst ?_ n hlst
            simp at hsz
            omega
          | nilPanic => rw [hlst] at hiv; simp at hiv
        | rangeN line pipe lst e =>
          rw [isValidN] at hiv
          cases hlst : validateL lst with
          | ok =>
            rw [hlst] at hiv
            cases e with
            | none => simp [validateOpt] at hiv
            | some l2 =>
              cases hl2 : validateL l2 with
              | ok => simp [validateOpt, hl2] at hiv
              | invalid m =>
                simp [validateOpt, hl2] at hiv
                cases hiv
                refine ih l2 ?_ n hl2
                simp at hsz
                omega
              | nilPanic => simp [validateOpt, hl2] at hiv
          | invalid m =>
            rw [hlst] at hiv
            simp at hiv
            cases hiv
            refine ih lst ?_ n hlst
            simp at hsz
            omega
          | nilPanic => rw [hlst] at hiv; simp at hiv
        | text s => rw [isValidN] at hiv; cases hiv
        | action line pipe => rw [isValidN] at hiv; cases hiv
        | blockN line name pipe lst => rw [isValidN] at hiv; cases hiv
        | fillN line name pipe lst => rw [isValidN] at hiv; cases hiv
        | templateN line name pipe => rw [isValidN] at hiv; cases hiv
      | inr b =>
        rw [hiv] at hv
        cases b with
        | true =>
          have hv1 : 1 ≤ sizeOf v := PNode.one_le_sizeOf v
          refine ih rest ?_ n hv
          omega
        | false =>
          simp at hv
          rw [← hv]
          cases v with
          | text s =>
            rw [isValidN] at hiv
            simp at hiv
            simp [whitelistShape, hiv]
          | action a b => simp [whitelistShape]
          | fillN a b c d => simp [whitelistShape]
          | templateN a b c => simp [whitelistShape]
          | blockN a b c d => rw [isValidN] at hiv; simp at hiv
          | listN ns =>
            rw [isValidN] at hiv
            cases hvl : validateL ns <;> rw [hvl] at hiv <;> simp at hiv
          | ifN a b l e =>
            rw [isValidN] at hiv
            cases hvl : validateL l with
            | ok =>
              rw [hvl] at hiv
              cases hvo : validateOpt e <;> rw [hvo] at hiv <;> simp at hiv
            | invalid m => rw [hvl] at hiv; simp at hiv
            | nilPanic => rw [hvl] at hiv; simp at hiv
          | withN a b l e =>
            rw [isValidN] at hiv
            cases hvl : validateL l with
            | ok =>
              rw [hvl] at hiv
              cases hvo : validateOpt e <;> rw [hvo] at hiv <;> simp at hiv
            | invalid m => rw [hvl] at hiv; simp at hiv
            | nilPanic => rw [hvl] at hiv; simp at hiv
          | rangeN a b l e =>
            rw [isValidN] at hiv
            cases hvl : validateL l with
            | ok =>
              rw [hvl] at hiv
              cases hvo : validateOpt e <;> rw [hvo] at hiv <;> simp at hiv
            | invalid m => rw [hvl] at hiv; simp at hiv
            | nilPanic => rw [hvl] at hiv; simp at hiv

/-- C7: fill-body validation rejects, with a panic error carrying the
offending node, any direct child that is not a block, if, with, range or
whitespace-only text: (1) a non-whitelisted direct child makes validation
fail; (2) an error always carries a non-whitelisted node; (3) a bare
action such as a field evaluation is rejected carrying that action; and
(4) the restriction is applied recursively to the bodies of nested
if/with/range nodes. -/
theorem fill_validation_whitelist :
    (∀ (l : List PNode) (n : PNode), n ∈ l → whitelistShape n = false →
        validateL l ≠ .ok)
      ∧ (∀ (l : List PNode) (n : PNode), validateL l = .invalid n →
          whitelistShape n = false)
      ∧ validateL [PNode.action 1 ⟨1⟩] = .invalid (PNode.action 1 ⟨1⟩)
      ∧ validateL [PNode.ifN 1 ⟨1⟩ [PNode.text " "]
            (some [PNode.action 2 ⟨2⟩])]
          = .invalid (PNode.action 2 ⟨2⟩)
      ∧ validateL [PNode.rangeN 1 ⟨1⟩ [PNode.templateN 2 "x" none] none]
          = .invalid (PNode.templateN 2 "x" none) := by
  refine ⟨?_, ?_, rfl, rfl, rfl⟩
  · intro l n hmem hshape hok
    have := validateL_ok_shape l hok n hmem
    rw [this] at hshape
    cases hshape
  · intro l n hv
    exact validateL_invalid_shape (sizeOf l) l (Nat.le_refl _) n hv

/-- Witness for C7: the bare action case, with the hypotheses of the
universal parts discharged at concrete inputs. -/
theorem fill_validation_whitelist_witness :
    validateL [PNode.action 1 ⟨1⟩] ≠ .ok
      ∧ whitelistShape (PNode.action 1 ⟨1⟩) = false :=
  ⟨fill_validation_whitelist.1 [PNode.action 1 ⟨1⟩] (PNode.action 1 ⟨1⟩)
      (List.mem_singleton.mpr rfl) rfl,
    fill_validation_whitelist.2.1 [PNode.action 1 ⟨1⟩] (PNode.action 1 ⟨1⟩)
      rfl⟩

/-- C3 (code bug): `isValid` recurses into `n.ElseList` without a nil
check, so a `{{fill}}` body containing an `{{if}}` with no `{{else}}`
branch dereferences a nil `*ListNode`; that runtime panic is re-raised by
`parser.recover` instead of being converted into a returned error, so
`Parse` propagates a panic on this input. -/
theorem fill_if_without_else_panics :
    validateL [PNode.ifN 1 ⟨1⟩ [PNode.text " "] none] = .nilPanic
      ∧ recoverOutcome (validateL [PNode.ifN 1 ⟨1⟩ [PNode.text " "] none])
          = .panicked
      ∧ recoverOutcome (validateL [PNode.ifN 1 ⟨1⟩ [PNode.text " "] none])
          ≠ .errReturned := by
  refine ⟨rfl, rfl, ?_⟩
  intro h
  cases h

/-!
## Trees of template definitions (`DefineNode`, `Tree`, `Tree.Add`,
`Tree.AddTree`)

A Go map is modelled as an association list with distinct keys; insertion
of a fresh key appends.  `DefineNode` carries the `Parent` field of the
zap variant (the empty string meaning no parent), whose node types are
declared outside `src/`; the field is modelled from the spec's
`{{define "child" "parent"}}` inheritance description.
-/

structure DefineDat where
  line : Nat
  name : String
  parent : String
  list : List PNode
  deriving Repr

/-- A collection of `DefineNode`s keyed by template name. -/
abbrev TreeA : Type := List (String × DefineDat)

/-- `Tree.Add`: adding under an existing name is a duplicate-name error
(`template: duplicated template name`) and performs no insertion;
otherwise the definition is stored under its name. -/
def treeAdd (t : TreeA) (node : DefineDat) : TreeA × Option String :=
  if (t.lookup node.name).isSome then
    (t, some "template: duplicated template name")
  else
    (t ++ [(node.name, node)], none)

/-- `Tree.AddTree`: add every node of `t2`, stopping at the first error. -/
def treeAddTree (t : TreeA) : TreeA → TreeA × Option String
  | [] => (t, none)
  | (_, n) :: rest =>
    match treeAdd t n with
    | (t', none) => treeAddTree t' rest
    | (t', some e) => (t', some e)

theorem lookup_append_left {t : TreeA} {k : String}
    (h : (t.lookup k).isSome) (x : String × DefineDat) :
    (t ++ [x]).lookup k = t.lookup k := by
  induction t with
  | nil => simp at h
  | cons p rest ih =>
    by_cases hk : k = p.1
    · simp [List.lookup, hk]
    · have hk' : (k == p.1) = false := by simpa using hk
      simp only [List.lookup, hk'] at h ⊢
      exact ih h

theorem treeAdd_preserves {t : TreeA} {node : DefineDat} {k : String}
    (h : (t.lookup k).isSome) :
    (treeAdd t node).1.lookup k = t.lookup k := by
  rw [treeAdd]
  by_cases hdup : (t.lookup node.name).isSome
  · rw [if_pos hdup]
  · rw [if_neg hdup]
    exact lookup_append_left h _

theorem treeAddTree_preserves (t2 : TreeA) (t : TreeA) (k : String)
    (h : (t.lookup k).isSome) :
    (treeAddTree t t2).1.lookup k = t.lookup k := by
  induction t2 generalizing t with
  | nil => rw [treeAddTree]
  | cons p rest ih =>
    rw [treeAddTree]
    cases hadd : treeAdd t p.2 with
    | mk t' e =>
      have hpres : t'.lookup k = t.lookup k := by
        have := @treeAdd_preserves t p.2 k h
        rw [hadd] at this
        exact this
      cases e with
      | none =>
        simp only
        rw [ih t' (by rw [hpres]; exact h), hpres]
      | some msg => simpa using hpres

theorem treeAddTree_errors (t2 : TreeA) (t : TreeA)
    (h : ∃ p ∈ t2, (t.lookup p.2.name).isSome) :
    (treeAddTree t t2).2.isSome := by
  induction t2 generalizing t with
  | nil => simp at h
  | cons p rest ih =>
    obtain ⟨q, hq, hqdup⟩ := h
    rw [treeAddTree]
    by_cases hdup : (t.lookup p.2.name).isSome
    · rw [treeAdd, if_pos hdup]
      simp
    · rw [treeAdd, if_neg hdup]
      simp only
      rcases List.mem_cons.mp hq with heq | hmem
      · rw [heq] at hqdup
        exact absurd hqdup hdup
      · refine ih (t ++ [(p.2.name, p.2)]) ⟨q, hmem, ?_⟩
        rw [lookup_append_left hqdup]
        exact hqdup

/-- C8: adding a definition under a name already present — directly via
`Tree.Add` or during a `Tree.AddTree` merge — yields a duplicate-name
error, and existing entries are never overwritten: `Add` leaves the whole
tree untouched on the error path, and after any `AddTree` every name that
was already bound still maps to its old definition. -/
theorem tree_add_duplicate_is_error :
    (∀ (t : TreeA) (node : DefineDat), (t.lookup node.name).isSome →
        (treeAdd t node).2.isSome ∧ (treeAdd t node).1 = t)
      ∧ (∀ (t t2 : TreeA) (k : String), (t.lookup k).isSome →
          (treeAddTree t t2).1.lookup k = t.lookup k)
      ∧ (∀ (t t2 : TreeA), (∃ p ∈ t2, (t.lookup p.2.name).isSome) →
          (treeAddTree t t2).2.isSome) := by
  refine ⟨?_, ?_, ?_⟩
  · intro t node h
    rw [treeAdd, if_pos h]
    exact ⟨rfl, rfl⟩
  · intro t t2 k h
    exact treeAddTree_preserves t2 t k h
  · intro t t2 h
    exact treeAddTree_errors t2 t h

/-- Witness for C8: re-adding a definition named `a` to a tree that
already binds `a` errors and leaves the old entry in place. -/
theorem tree_add_duplicate_is_error_witness :
    (treeAdd [("a", ⟨1, "a", "", []⟩)] ⟨2, "a", "", [PNode.text "x"]⟩).2.isSome
      ∧ (treeAdd [("a", ⟨1, "a", "", []⟩)] ⟨2, "a", "", [PNode.text "x"]⟩).1
          = [("a", ⟨1, "a", "", []⟩)] :=
  tree_add_duplicate_is_error.1 [("a", ⟨1, "a", "", []⟩)]
    ⟨2, "a", "", [PNode.text "x"]⟩ rfl

/-!
## The inheritance compiler (zap `Compile`, `inlineParent`,
`inlineParentList`, `extractBlocks`, `inlineBlocks`)

A tree set maps template names to root `DefineNode`s (the zap `Tree`
wrapper only holds `Root`).  Go's in-place pointer mutation becomes pure
substitution: `extractBlocks` collects the `(name, body)` pairs of a
define in walk order (a later pair shadows an earlier one, like repeated
Go map assignment), and the mutation of every extracted parent block
whose name has an override is the recursive substitution `substL`, which
replaces a matching block's body and does not descend into the
replacement (freshly attached source nodes were never in the extracted
`dst` map).  `CopyDefine` is the identity on values.  An absent else list
is treated as empty here; the claims' inputs contain no branch nodes
(the Go walk would nil-dereference on them, cf. the C3 bug). -/

inductive CompErr where
  | notFound (name : String)
  | recursion (deps : List String)
  | blockSelf
  | fuelOut
  deriving Repr, DecidableEq

/-- `inlineParentList`: walk the parent chain of `name` accumulating the
chain, failing on a missing template or on a repeated name (`impossible
recursion`).  The Go `for` loop gets explicit fuel; `fuelOut` is proven
unreachable for fuel above the tree-set size. -/
def inlineParentList (ts : TreeA) : Nat → String → List String → Except CompErr (List String)
  | 0, _, _ => .error .fuelOut
  | fuel + 1, name, deps =>
    match ts.lookup name with
    | none => .error (.notFound name)
    | some define =>
      if define.parent = "" then .ok deps
      else if name ∈ deps then .error (.recursion (deps ++ [name]))
      else inlineParentList ts fuel define.parent (deps ++ [name])

mutual

/-- `extractBlocks` over a node list: the `(name, body)` pairs of every
block node in walk order. -/
def extractBlocksL : List PNode → List (String × List PNode)
  | [] => []
  | n :: rest => extractBlocksN n ++ extractBlocksL rest

/-- `extractBlocks` over one node. -/
def extractBlocksN : PNode → List (String × List PNode)
  | .blockN _ nm _ bl => (nm, bl) :: extractBlocksL bl
  | .ifN _ _ l e => extractBlocksL l ++ (match e with
      | some el => extractBlocksL el
      | none => [])
  | .rangeN _ _ l e => extractBlocksL l ++ (match e with
      | some el => extractBlocksL el
      | none => [])
  | .withN _ _ l e => extractBlocksL l ++ (match e with
      | some el => extractBlocksL el
      | none => [])
  | .listN ns => extractBlocksL ns
  | _ => []

end

/-- Go map semantics over the extraction order: the last write wins. -/
def lookupLast (src : List (String × List PNode)) (k : String) : Option (List PNode) :=
  src.reverse.lookup k

mutual

/-- Apply the block overrides `src` to a parent body: a block whose name
is overridden receives the override as its new body; any other node is
walked recursively (the walk mirrors `extractBlocks`). -/
def substL (src : List (String × List PNode)) : List PNode → List PNode
  | [] => []
  | n :: rest => substN src n :: substL src rest

def substN (src : List (String × List PNode)) : PNode → PNode
  | .blockN a nm p bl =>
    match lookupLast src nm with
    | some newl => .blockN a nm p newl
    | none => .blockN a nm p (substL src bl)
  | .ifN a b l e => .ifN a b (substL src l)
      (match e with | some el => some (substL src el) | none => none)
  | .rangeN a b l e => .rangeN a b (substL src l)
      (match e with | some el => some (substL src el) | none => none)
  | .withN a b l e => .withN a b (substL src l)
      (match e with | some el => some (substL src el) | none => none)
  | .listN ns => .listN (substL src ns)
  | n => n

end

/-- Replace the root stored under `name`. -/
def replaceEntry (ts : TreeA) (name : String) (d : DefineDat) : TreeA :=
  ts.map (fun p => if p.1 = name then (p.1, d) else p)

/-- `inlineParent`: replace `name`'s root by a renamed copy of its
parent's root with `name`'s block overrides applied.  `Compile` only
calls this on names whose chain `inlineParentList` has validated, so
both lookups succeed there; a failed lookup leaves the set unchanged. -/
def inlineParent (ts : TreeA) (name : String) : TreeA :=
  match ts.lookup name with
  | none => ts
  | some define =>
    match ts.lookup define.parent with
    | none => ts
    | some parentDef =>
      let src := extractBlocksL define.list
      replaceEntry ts name
        ⟨parentDef.line, define.name, parentDef.parent, substL src parentDef.list⟩

mutual

/-- `inlineBlocks` over the children of a `ListNode`: a block child is
replaced by a `ListNode` holding its body, which is then walked. -/
def inlineBlocksL : List PNode → List PNode
  | [] => []
  | .blockN _ _ _ bl :: rest => .listN (inlineBlocksL bl) :: inlineBlocksL rest
  | n :: rest => inlineBlocksNode n :: inlineBlocksL rest

/-- `inlineBlocks` over a non-block node. -/
def inlineBlocksNode : PNode → PNode
  | .listN ns => .listN (inlineBlocksL ns)
  | .ifN a b l e => .ifN a b (inlineBlocksL l)
      (match e with | some el => some (inlineBlocksL el) | none => none)
  | .rangeN a b l e => .rangeN a b (inlineBlocksL l)
      (match e with | some el => some (inlineBlocksL el) | none => none)
  | .withN a b l e => .withN a b (inlineBlocksL l)
      (match e with | some el => some (inlineBlocksL el) | none => none)
  | n => n

end

/-- Top-level `inlineBlocks`: a block node reaching the final inlining
directly is the `block node can't be replaced by itself` error. -/
def inlineBlocksTop : PNode → Except CompErr PNode
  | .blockN _ _ _ _ => .error .blockSelf
  | n => .ok (inlineBlocksNode n)

/-- `Compile`: resolve every parent chain (inlining ancestors first), then
inline all remaining block nodes.  `order` is the Go map iteration order
of the first pass; the fixture theorem quantifies over all of them. -/
def zapCompile (order : List String) (ts : TreeA) : Except CompErr TreeA := do
  let ts ← order.foldlM (fun ts name => do
      let deps ← inlineParentList ts (ts.length + 1) name []
      pure (deps.reverse.foldl (fun ts n => inlineParent ts n) ts)) ts
  ts.mapM (fun p => do
    let r ← inlineBlocksTop (.listN p.2.list)
    pure (p.1, { p.2 with list := match r with
      | .listN ns => ns
      | other => [other] }))

mutual

/-- Render a compiled text-only node: the concatenation of its text
(`ListNode`s flatten, as the template executor would render them). -/
def flattenN : PNode → String
  | .text s => s
  | .listN ns => flattenL ns
  | .blockN _ _ _ bl => flattenL bl
  | _ => ""

/-- Render a body (a list of nodes). -/
def flattenL : List PNode → String
  | [] => ""
  | n :: rest => flattenN n ++ flattenL rest

end

/-- The four-template fixture of `TestBlock` (zap_test.go), as parsed. -/
def zapFixture : TreeA :=
  [("t1", ⟨1, "t1", "",
      [.text "foo-", .blockN 1 "b1" none [.text "t1b1-"], .text "bar"]⟩),
   ("t2", ⟨2, "t2", "t1",
      [.blockN 2 "b1" none
        [.text "t2b1-", .blockN 2 "b2" none [.text "t2b2-"]]]⟩),
   ("t3", ⟨3, "t3", "t2", [.blockN 3 "b2" none [.text "t3b2-"]]⟩),
   ("t4", ⟨4, "t4", "t2", [.blockN 4 "b2" none [.text "t4b2-"]]⟩)]

/-- The rendered bodies of the four templates after compilation. -/
def zapFixtureRender (order : List String) : Option (List (String × String)) :=
  match zapCompile order zapFixture with
  | .error _ => none
  | .ok ts =>
    some (["t1", "t2", "t3", "t4"].map
      (fun n => (n, ((ts.lookup n).map (fun d => flattenL d.list)).getD "?")))

/-- C1: over every map-iteration order of the first pass, compiling the
four-template fixture succeeds and flattening each resolved body gives
exactly `foo-t1b1-bar`, `foo-t2b1-t2b2-bar`, `foo-t2b1-t3b2-bar` and
`foo-t2b1-t4b2-bar`. -/
theorem zap_compile_fixture :
    ∀ (order : List String), order.Perm ["t1", "t2", "t3", "t4"] →
      zapFixtureRender order
        = some [("t1", "foo-t1b1-bar"), ("t2", "foo-t2b1-t2b2-bar"),
            ("t3", "foo-t2b1-t3b2-bar"), ("t4", "foo-t2b1-t4b2-bar")] := by
  intro order h
  have h4 : order.length = 4 := by simpa using h.length_eq
  have hnd : order.Nodup := (List.Perm.nodup_iff h).mpr (by decide)
  cases order with
  | nil => simp at h4
  | cons a o1 =>
  cases o1 with
  | nil => simp at h4
  | cons b o2 =>
  cases o2 with
  | nil => simp at h4
  | cons c o3 =>
  cases o3 with
  | nil => simp at h4
  | cons d o4 =>
  cases o4 with
  | cons e o5 => simp at h4
  | nil =>
  have ha : a ∈ ["t1", "t2", "t3", "t4"] := h.subset (by simp)
  have hb : b ∈ ["t1", "t2", "t3", "t4"] := h.subset (by simp)
  have hc : c ∈ ["t1", "t2", "t3", "t4"] := h.subset (by simp)
  have hd : d ∈ ["t1", "t2", "t3", "t4"] := h.subset (by simp)
  simp only [List.mem_cons, List.not_mem_nil, or_false] at ha hb hc hd
  rcases ha with rfl | rfl | rfl | rfl <;>
    rcases hb with rfl | rfl | rfl | rfl <;>
      rcases hc with rfl | rfl | rfl | rfl <;>
        rcases hd with rfl | rfl | rfl | rfl <;>
          first
            | exact absurd hnd (by decide)
            | rfl

/-- Witness for C1: the insertion order itself is one map order. -/
theorem zap_compile_fixture_witness :
    zapFixtureRender ["t1", "t2", "t3", "t4"]
      = some [("t1", "foo-t1b1-bar"), ("t2", "foo-t2b1-t2b2-bar"),
          ("t3", "foo-t2b1-t3b2-bar"), ("t4", "foo-t2b1-t4b2-bar")] :=
  zap_compile_fixture ["t1", "t2", "t3", "t4"] (List.Perm.refl _)

theorem lookup_mem_keys {l : TreeA} {k : String} {v : DefineDat}
    (h : l.lookup k = some v) : k ∈ l.map Prod.fst := by
  induction l with
  | nil => cases h
  | cons p rest ih =>
    by_cases hk : k = p.1
    · simp [hk]
    · have hk' : (k == p.1) = false := by simpa using hk
      rw [List.lookup] at h
      rw [hk'] at h
      simp only [List.map_cons, List.mem_cons]
      exact Or.inr (ih h)

theorem inlineParentList_no_fuelOut
    (ts : TreeA) (hnd : (ts.map Prod.fst).Nodup) :
    ∀ (fuel : Nat) (name : String) (deps : List String),
      deps.Nodup → (∀ d ∈ deps, d ∈ ts.map Prod.fst) →
      ts.length + 1 ≤ fuel + deps.length →
      inlineParentList ts fuel name deps ≠ .error .fuelOut := by
  intro fuel
  induction fuel with
  | zero =>
    intro name deps hdnd hdk hlen
    exfalso
    have hle : deps.length ≤ (ts.map Prod.fst).length := by
      have h1 : deps.toFinset.card = deps.length :=
        List.toFinset_card_of_nodup hdnd
      have h2 : deps.toFinset ⊆ (ts.map Prod.fst).toFinset := by
        intro x hx
        exact List.mem_toFinset.mpr (hdk x (List.mem_toFinset.mp hx))
      have h3 := Finset.card_le_card h2
      have h4 := List.toFinset_card_le (ts.map Prod.fst)
      omega
    simp at hle
    omega
  | succ fuel ih =>
    intro name deps hdnd hdk hlen
    cases hlk : ts.lookup name with
    | none =>
      rw [inlineParentList, hlk]
      intro h; cases h
    | some define =>
      rw [inlineParentList, hlk]
      dsimp only
      by_cases hroot : define.parent = ""
      · rw [if_pos hroot]
        intro h; cases h
      · rw [if_neg hroot]
        by_cases hmem : name ∈ deps
        · rw [if_pos hmem]
          intro h; cases h
        · rw [if_neg hmem]
          refine ih define.parent (deps ++ [name]) ?_ ?_ ?_
          · simp [List.nodup_append, hdnd]
            exact hmem
          · intro d hd
            rcases List.mem_append.mp hd with h1 | h2
            · exact hdk d h1
            · rw [List.mem_singleton.mp h2]
              exact lookup_mem_keys hlk
          · simp
            omega

/-- The two-template cyclic set: `A`'s parent is `B`, `B`'s parent `A`. -/
def zapCycleSet : TreeA :=
  [("A", ⟨1, "A", "B", []⟩), ("B", ⟨1, "B", "A", []⟩)]

/-- Is the compilation outcome the `impossible recursion` error? -/
def isRecursionErr : Except CompErr TreeA → Bool
  | .error (.recursion _) => true
  | _ => false

/-- C2: the parent-chain walk always terminates — with fuel above the
tree-set size it never runs out, because the accumulated visited names
are distinct keys of the set — and on the concrete A↔B cyclic set
`Compile` returns the recursion error under both iteration orders. -/
theorem zap_cycle_detection :
    (∀ (ts : TreeA), (ts.map Prod.fst).Nodup → ∀ (name : String),
        inlineParentList ts (ts.length + 1) name [] ≠ .error .fuelOut)
      ∧ (∀ (order : List String), order.Perm ["A", "B"] →
          isRecursionErr (zapCompile order zapCycleSet) = true) := by
  constructor
  · intro ts hnd name
    refine inlineParentList_no_fuelOut ts hnd (ts.length + 1) name []
      List.nodup_nil (by intro d hd; cases hd) ?_
    simp
  · intro order h
    have h2 : order.length = 2 := by simpa using h.length_eq
    cases order with
    | nil => simp at h2
    | cons a o1 =>
    cases o1 with
    | nil => simp at h2
    | cons b o2 =>
    cases o2 with
    | cons c o3 => simp at h2
    | nil =>
    have hnd : [a, b].Nodup := (List.Perm.nodup_iff h).mpr (by decide)
    have ha : a ∈ ["A", "B"] := h.subset (by simp)
    have hb : b ∈ ["A", "B"] := h.subset (by simp)
    simp only [List.mem_cons, List.not_mem_nil, or_false] at ha hb
    rcases ha with rfl | rfl <;>
      rcases hb with rfl | rfl <;>
        first
          | exact absurd hnd (by decide)
          | rfl

/-- Witness for C2: the termination bound applied to the concrete cyclic
set (whose keys are distinct). -/
theorem zap_cycle_detection_witness :
    inlineParentList zapCycleSet (zapCycleSet.length + 1) "A" []
      ≠ .error .fuelOut :=
  zap_cycle_detection.1 zapCycleSet (by decide) "A"

/-!
## Contextual escaper: text context tracking

Modelled from the spec: the escaper's character-by-character HTML/CSS/JS
context state machine (`escapeText` over literal text and the escaper
`context` struct) is not under `src/` — only its test table is — so the
machine below follows the spec's §4.4 design: states for plain text,
inside-tag, attribute name/after-name/before-value, attribute values
sub-dispatched by attribute kind (plain/URL/script/style), HTML comments,
`<script>` bodies with JS divide-vs-regexp contexts, strings, comments
and regexp literals (with character classes), `<style>` bodies with CSS
strings, comments and `url(...)` forms, and RCDATA elements recognised
until their own closing tag; attribute-name classification is case- and
namespace-insensitive.  Text is processed chunk-wise; every loop carries
explicit fuel (inputs are concrete, and the driver's fuel exceeds any
possible number of steps for them).
-/

inductive EState where
  | text | tag | attrName | afterName | beforeValue
  | htmlCmt | rcdata | attr | url
  | js | jsDqStr | jsSqStr | jsRegexp | jsBlockCmt | jsLineCmt
  | css | cssDqStr | cssSqStr | cssDqURL | cssSqURL | cssURL
  | cssBlockCmt | cssLineCmt
  | errState
  deriving Repr, DecidableEq

inductive EDelim where
  | dNone | dDouble | dSingle | dSpaceOrTagEnd
  deriving Repr, DecidableEq

inductive EUrlPart where
  | uNone | uPreQuery | uQueryOrFrag | uUnknown
  deriving Repr, DecidableEq

inductive EJsCtx where
  | jRegexp | jDivOp | jUnknown
  deriving Repr, DecidableEq

inductive EAttr where
  | aNone | aScript | aStyle | aURL
  deriving Repr, DecidableEq

inductive EElement where
  | eNone | eScript | eStyle | eTextarea | eTitle
  deriving Repr, DecidableEq

/-- The escaper context: where we are inside an HTML document. -/
structure ECtx where
  state : EState := .text
  delim : EDelim := .dNone
  urlPart : EUrlPart := .uNone
  jsCtx : EJsCtx := .jRegexp
  attr : EAttr := .aNone
  element : EElement := .eNone
  deriving Repr, DecidableEq

/-- Scan a suffix for a character of `set`, `k` being the absolute index
of the suffix's head. -/
def indexOfAnyAux (set : List Char) : List Char → Nat → Option Nat
  | [], _ => none
  | c :: rest, k => if c ∈ set then some k else indexOfAnyAux set rest (k + 1)

/-- First index `≥ k` whose character belongs to `set`. -/
def indexOfAnyFrom (s : List Char) (set : List Char) (k : Nat) : Option Nat :=
  indexOfAnyAux set (s.drop k) k

def indexOfAny (s : List Char) (set : List Char) : Option Nat :=
  indexOfAnyFrom s set 0

/-- Scan a suffix for an occurrence of `pat`, `k` being the absolute
index of the suffix's head. -/
def indexOfSubAux (pat : List Char) : List Char → Nat → Option Nat
  | [], k => if pat.isEmpty then some k else none
  | s@(_ :: rest), k =>
    if pat.isPrefixOf s then some k else indexOfSubAux pat rest (k + 1)

/-- First index `≥ k` where `pat` occurs as a contiguous run. -/
def indexOfSubFrom (s : List Char) (pat : List Char) (k : Nat) : Option Nat :=
  indexOfSubAux pat (s.drop k) k

def indexOfSub (s : List Char) (pat : List Char) : Option Nat :=
  indexOfSubFrom s pat 0

/-- HTML whitespace (`"\t\n\f\r "`). -/
def isHtmlSpace (c : Char) : Bool :=
  c = '\t' ∨ c = '\n' ∨ c = '\x0c' ∨ c = '\r' ∨ c = ' '

/-- `eatWhiteSpace`: length of the leading HTML-whitespace run. -/
def eatWhiteSpace (s : List Char) : Nat :=
  (s.takeWhile isHtmlSpace).length

def isAsciiLetter (c : Char) : Bool :=
  ('a' ≤ c ∧ c ≤ 'z') ∨ ('A' ≤ c ∧ c ≤ 'Z')

def isAsciiDigit (c : Char) : Bool :=
  '0' ≤ c ∧ c ≤ '9'

/-- Element classification of a (lowered) tag name. -/
def elementOf (name : List Char) : EElement :=
  if name = "script".toList then .eScript
  else if name = "style".toList then .eStyle
  else if name = "textarea".toList then .eTextarea
  else if name = "title".toList then .eTitle
  else .eNone

/-- Absorb the rest of a tag name: alphanumerics, and an interior `:` or
`-` when followed by an alphanumeric (`x-y`, `x:y`, not `x-`). -/
def eatTagNameBody : Nat → List Char → Nat → Nat
  | 0, _, j => j
  | fuel + 1, s, j =>
    if h : j < s.length then
      let x := s.get ⟨j, h⟩
      if isAsciiLetter x || isAsciiDigit x then eatTagNameBody fuel s (j + 1)
      else if (x = ':' ∨ x = '-') ∧ j + 1 < s.length
          ∧ (isAsciiLetter (s.getD (j + 1) ' ')
              || isAsciiDigit (s.getD (j + 1) ' ')) then
        eatTagNameBody fuel s (j + 2)
      else j
    else j

/-- `eatTagName` at position `i`: a tag name starts with an ASCII letter;
returns the end position and the element. -/
def eatTagName (s : List Char) (i : Nat) : Nat × EElement :=
  match s.drop i with
  | [] => (i, .eNone)
  | c :: _ =>
    if isAsciiLetter c then
      let j := eatTagNameBody (s.length + 1) s (i + 1)
      (j, elementOf (((s.take j).drop i).map Char.toLower))
    else (i, .eNone)

/-- `eatAttrName` from position `i`: ends before HTML space, `=` or `>`;
a quote or `<` inside an attribute name is an error (`none`). -/
def eatAttrName (s : List Char) (i : Nat) : Option Nat :=
  match indexOfAnyFrom s ['\t', '\n', '\x0c', '\r', ' ', '=', '>', '\'', '"', '<'] i with
  | none => some s.length
  | some j =>
    if s.getD j ' ' = '\'' ∨ s.getD j ' ' = '"' ∨ s.getD j ' ' = '<' then none
    else some j

/-- Known attribute names (after namespace/`data-` stripping). -/
def attrTypeMapL : List (List Char × EAttr) :=
  [("href".toList, .aURL), ("src".toList, .aURL), ("action".toList, .aURL),
   ("formaction".toList, .aURL), ("background".toList, .aURL),
   ("cite".toList, .aURL), ("classid".toList, .aURL),
   ("codebase".toList, .aURL), ("data".toList, .aURL),
   ("icon".toList, .aURL), ("longdesc".toList, .aURL),
   ("manifest".toList, .aURL), ("poster".toList, .aURL),
   ("profile".toList, .aURL), ("usemap".toList, .aURL),
   ("xmlns".toList, .aURL), ("style".toList, .aStyle)]

/-- Attribute-kind classification: case-insensitive; `data-` prefixes are
stripped, `xmlns:*` is a URL, other namespace prefixes are dropped;
`on*` is a script handler; names containing `src`, `uri` or `url` are
treated as URLs. -/
def attrType (nameRaw : List Char) : EAttr :=
  let name := nameRaw.map Char.toLower
  let core :=
    if ("data-".toList).isPrefixOf name then some (name.drop 5)
    else
      match indexOfAny name [':'] with
      | some i =>
        if name.take i = "xmlns".toList then none   -- classified URL directly
        else some (name.drop (i + 1))
      | none => some name
  match core with
  | none => .aURL
  | some nm =>
    match attrTypeMapL.lookup nm with
    | some t => t
    | none =>
      if ("on".toList).isPrefixOf nm then .aScript
      else if (indexOfSub nm "src".toList).isSome
          ∨ (indexOfSub nm "uri".toList).isSome
          ∨ (indexOfSub nm "url".toList).isSome then .aURL
      else .aNone

/-- Content state entered at `>` for each element. -/
def elementContentType : EElement → EState
  | .eNone => .text
  | .eScript => .js
  | .eStyle => .css
  | .eTextarea => .rcdata
  | .eTitle => .rcdata

/-- State entered at the start of an attribute value of each kind. -/
def attrStartState : EAttr → EState
  | .aNone => .attr
  | .aScript => .js
  | .aStyle => .css
  | .aURL => .url

/-- JS whitespace for the regexp/division heuristic. -/
def isJsSpace (c : Char) : Bool :=
  c = '\t' ∨ c = '\n' ∨ c = '\x0c' ∨ c = '\r' ∨ c = ' '
    ∨ c = ' ' ∨ c = ' '

def isJSIdentPart (c : Char) : Bool :=
  c = '$' ∨ c = '_' ∨ isAsciiLetter c ∨ isAsciiDigit c

/-- Keywords after which a `/` begins a regexp literal. -/
def regexpPrecederKeywords : List (List Char) :=
  ["break", "case", "continue", "delete", "do", "else", "finally", "in",
   "instanceof", "return", "throw", "try", "typeof", "void"].map String.toList

/-- The divide-vs-regexp context after a run of JS tokens: a trailing
value (identifier that is not a regexp-preceding keyword, number, or
closing bracket) makes a following `/` a division; operators, keywords
and open brackets make it start a regexp. -/
def nextJSCtx (s : List Char) (preceding : EJsCtx) : EJsCtx :=
  let t := (s.reverse.dropWhile isJsSpace).reverse
  match t.getLast? with
  | none => preceding
  | some c =>
    if c = '+' ∨ c = '-' then
      -- an odd run of the sign character makes a prefix operator
      let run := (t.reverse.takeWhile (fun d => d = c)).length
      if run % 2 = 1 then .jRegexp else .jDivOp
    else if c = '.' then
      match t.reverse with
      | _ :: d :: _ => if isAsciiDigit d then .jDivOp else .jRegexp
      | _ => .jRegexp
    else if c ∈ [',', '<', '>', '=', '*', '%', '&', '|', '^', '?',
        '!', '~', '(', '[', ':', ';'] ∨ c = '\x7b' ∨ c = '\x7d' then
      .jRegexp
    else
      let identRev := t.reverse.takeWhile isJSIdentPart
      if identRev.reverse ∈ regexpPrecederKeywords then .jRegexp
      else .jDivOp

/-- `tText`: scan for a comment opener or a tag; an orphan `<` stays text. -/
def tTextLoop : Nat → ECtx → List Char → Nat → ECtx × Nat
  | 0, c, s, _ => (c, s.length)
  | fuel + 1, c, s, k =>
    match indexOfAnyFrom s ['<'] k with
    | none => (c, s.length)
    | some i =>
      if i + 1 ≥ s.length then (c, s.length)
      else if ((s.drop i).take 4) = ['<', '!', '-', '-'] then
        ({ state := .htmlCmt }, i + 4)
      else
        let isEnd := s.getD (i + 1) ' ' = '/'
        let i2 := if isEnd then i + 2 else i + 1
        if isEnd ∧ i2 ≥ s.length then (c, s.length)
        else
          let (j, e) := eatTagName s i2
          if j ≠ i2 then
            ({ state := .tag, element := if isEnd then .eNone else e }, j)
          else
            tTextLoop fuel c s i2

def tText (c : ECtx) (s : List Char) : ECtx × Nat :=
  tTextLoop (s.length + 1) c s 0

/-- `tTag`: skip space; `>` enters the element's content; otherwise read
and classify an attribute name. -/
def tTag (c : ECtx) (s : List Char) : ECtx × Nat :=
  let i := eatWhiteSpace s
  if i = s.length then (c, s.length)
  else if s.getD i ' ' = '>' then
    ({ state := elementContentType c.element, element := c.element }, i + 1)
  else
    match eatAttrName s i with
    | none => ({ state := .errState }, s.length)
    | some j =>
      if i = j then ({ state := .errState }, s.length)
      else
        ({ state := if j = s.length then .attrName else .afterName
           element := c.element
           attr := attrType ((s.take j).drop i) }, j)

/-- `tAttrName`: continue an attribute name split across chunks. -/
def tAttrName (c : ECtx) (s : List Char) : ECtx × Nat :=
  match eatAttrName s 0 with
  | none => ({ state := .errState }, s.length)
  | some i =>
    if i = s.length then (c, s.length)
    else ({ c with state := .afterName }, i)

/-- `tAfterName`: an `=` leads to the value; anything else back to tag. -/
def tAfterName (c : ECtx) (s : List Char) : ECtx × Nat :=
  let i := eatWhiteSpace s
  if i = s.length then (c, s.length)
  else if s.getD i ' ' = '=' then ({ c with state := .beforeValue }, i + 1)
  else ({ c with state := .tag }, i)

/-- `tBeforeValue`: pick the delimiter and enter the value state for the
attribute kind. -/
def tBeforeValue (c : ECtx) (s : List Char) : ECtx × Nat :=
  let i := eatWhiteSpace s
  if i = s.length then (c, s.length)
  else
    let d := s.getD i ' '
    let (delim, iNext) :=
      if d = '\'' then (EDelim.dSingle, i + 1)
      else if d = '"' then (EDelim.dDouble, i + 1)
      else (EDelim.dSpaceOrTagEnd, i)
    ({ state := attrStartState c.attr, delim := delim, element := c.element },
      iNext)

/-- `tHTMLCmt`: ends at the first occurrence of the close marker. -/
def tHTMLCmt (c : ECtx) (s : List Char) : ECtx × Nat :=
  match indexOfSub s ['-', '-', '>'] with
  | some i => ({ state := .text }, i + 3)
  | none => (c, s.length)

/-- `tURL`: a `?` or `#` moves past the query; any other non-space
content enters the pre-query part. -/
def tURL (c : ECtx) (s : List Char) : ECtx × Nat :=
  if (indexOfAny s ['#', '?']).isSome then
    ({ c with urlPart := .uQueryOrFrag }, s.length)
  else if eatWhiteSpace s ≠ s.length ∧ c.urlPart = .uNone then
    ({ c with urlPart := .uPreQuery }, s.length)
  else (c, s.length)

/-- `tJS`: track the divide-vs-regexp context up to the next quote or
slash, then dispatch into a string, comment, regexp or division. -/
def tJS (c : ECtx) (s : List Char) : ECtx × Nat :=
  match indexOfAny s ['"', '\'', '/'] with
  | none => ({ c with jsCtx := nextJSCtx s c.jsCtx }, s.length)
  | some i =>
    let c := { c with jsCtx := nextJSCtx (s.take i) c.jsCtx }
    let d := s.getD i ' '
    if d = '"' then ({ c with state := .jsDqStr, jsCtx := .jRegexp }, i + 1)
    else if d = '\'' then ({ c with state := .jsSqStr, jsCtx := .jRegexp }, i + 1)
    else if i + 1 < s.length ∧ s.getD (i + 1) ' ' = '/' then
      ({ c with state := .jsLineCmt }, i + 2)
    else if i + 1 < s.length ∧ s.getD (i + 1) ' ' = '*' then
      ({ c with state := .jsBlockCmt }, i + 2)
    else
      match c.jsCtx with
      | .jRegexp => ({ c with state := .jsRegexp }, i + 1)
      | .jDivOp => ({ c with jsCtx := .jRegexp }, i + 1)
      | .jUnknown => ({ state := .errState }, s.length)

/-- `tJSDelimited`: JS strings and regexp literals; `\\` escapes, and a
regexp character class suspends the closing `/`. -/
def tJSDelimitedLoop (c : ECtx) (s : List Char) (specials : List Char) :
    Nat → Nat → Bool → ECtx × Nat
  | 0, _, _ => (c, s.length)
  | fuel + 1, k, inCharset =>
    match indexOfAnyFrom s specials k with
    | none =>
      if inCharset then ({ state := .errState }, s.length)
      else (c, s.length)
    | some i =>
      let d := s.getD i ' '
      if d = '\\' then
        if i + 1 = s.length then ({ state := .errState }, s.length)
        else tJSDelimitedLoop c s specials fuel (i + 2) inCharset
      else if d = '[' then
        tJSDelimitedLoop c s specials fuel (i + 1) true
      else if d = ']' then
        tJSDelimitedLoop c s specials fuel (i + 1) false
      else
        if inCharset then
          tJSDelimitedLoop c s specials fuel (i + 1) inCharset
        else
          ({ c with state := .js, jsCtx := .jDivOp }, i + 1)

def tJSDelimited (c : ECtx) (s : List Char) : ECtx × Nat :=
  let specials :=
    match c.state with
    | .jsSqStr => ['\\', '\'']
    | .jsRegexp => ['\\', '/', '[', ']']
    | _ => ['\\', '"']
  tJSDelimitedLoop c s specials (s.length + 1) 0 false

/-- `tLineCmt`: a JS or CSS line comment ends before the line terminator
(left for the host state to consume as whitespace). -/
def tLineCmt (c : ECtx) (s : List Char) : ECtx × Nat :=
  let (terms, endState) :=
    if c.state = .cssLineCmt then (['\n', '\x0c', '\r'], EState.css)
    else (['\n', '\r', ' ', ' '], EState.js)
  match indexOfAny s terms with
  | none => (c, s.length)
  | some i => ({ c with state := endState }, i)

/-- `tBlockCmt`: a JS or CSS block comment ends after the close marker. -/
def tBlockCmt (c : ECtx) (s : List Char) : ECtx × Nat :=
  let endState := if c.state = .cssBlockCmt then EState.css else EState.js
  match indexOfSub s ['*', '/'] with
  | none => (c, s.length)
  | some i => ({ c with state := endState }, i + 2)

def isCSSNmchar (c : Char) : Bool :=
  isAsciiLetter c ∨ isAsciiDigit c ∨ c = '-' ∨ c = '_'

/-- Does the (trimmed) prefix end with the CSS keyword `url`? -/
def endsWithURLKeyword (p : List Char) : Bool :=
  let t := ((p.reverse.dropWhile isHtmlSpace).reverse).map Char.toLower
  if ("lru".toList).isPrefixOf t.reverse then
    match t.reverse.drop 3 with
    | [] => true
    | d :: _ => !isCSSNmchar d
  else false

/-- `tCSS`: watch for `url(`, strings and comments. -/
def tCSSLoop (c : ECtx) (s : List Char) : Nat → Nat → ECtx × Nat
  | 0, _ => (c, s.length)
  | fuel + 1, k =>
    match indexOfAnyFrom s ['(', '"', '\'', '/'] k with
    | none => (c, s.length)
    | some i =>
      let d := s.getD i ' '
      if d = '(' then
        if endsWithURLKeyword (s.take i) then
          let j := i + 1 + eatWhiteSpace (s.drop (i + 1))
          if j < s.length ∧ s.getD j ' ' = '"' then
            ({ c with state := .cssDqURL }, j + 1)
          else if j < s.length ∧ s.getD j ' ' = '\'' then
            ({ c with state := .cssSqURL }, j + 1)
          else ({ c with state := .cssURL }, j)
        else tCSSLoop c s fuel (i + 1)
      else if d = '/' then
        if i + 1 < s.length ∧ s.getD (i + 1) ' ' = '/' then
          ({ c with state := .cssLineCmt }, i + 2)
        else if i + 1 < s.length ∧ s.getD (i + 1) ' ' = '*' then
          ({ c with state := .cssBlockCmt }, i + 2)
        else tCSSLoop c s fuel (i + 1)
      else if d = '"' then ({ c with state := .cssDqStr }, i + 1)
      else ({ c with state := .cssSqStr }, i + 1)

def tCSS (c : ECtx) (s : List Char) : ECtx × Nat :=
  tCSSLoop c s (s.length + 1) 0

/-- `tCSSStr`: CSS strings and `url(...)` bodies; URL-part tracking on
the content, `\\` escapes. -/
def tCSSStrLoop (c : ECtx) (s : List Char) (endAndEsc : List Char) :
    Nat → Nat → ECtx × Nat
  | 0, _ => (c, s.length)
  | fuel + 1, k =>
    match indexOfAnyFrom s endAndEsc k with
    | none =>
      ((tURL c (s.drop k)).1, s.length)
    | some i =>
      let d := s.getD i ' '
      if d = '\\' then
        if i + 1 = s.length then ({ state := .errState }, s.length)
        else
          tCSSStrLoop ((tURL c (s.take (i + 1))).1) s endAndEsc fuel (i + 2)
      else ({ c with state := .css }, i + 1)

def tCSSStr (c : ECtx) (s : List Char) : ECtx × Nat :=
  let endAndEsc :=
    match c.state with
    | .cssDqStr | .cssDqURL => ['\\', '"']
    | .cssSqStr | .cssSqURL => ['\\', '\'']
    | _ => ['\\', '\t', '\n', '\x0c', '\r', ' ', ')']
  tCSSStrLoop c s endAndEsc (s.length + 1) 0

/-- Dispatch one chunk to the current state's transition. -/
def transitionOn (c : ECtx) (s : List Char) : ECtx × Nat :=
  match c.state with
  | .text => tText c s
  | .tag => tTag c s
  | .attrName => tAttrName c s
  | .afterName => tAfterName c s
  | .beforeValue => tBeforeValue c s
  | .htmlCmt => tHTMLCmt c s
  | .rcdata => (c, s.length)
  | .attr => (c, s.length)
  | .url => tURL c s
  | .js => tJS c s
  | .jsDqStr => tJSDelimited c s
  | .jsSqStr => tJSDelimited c s
  | .jsRegexp => tJSDelimited c s
  | .jsBlockCmt => tBlockCmt c s
  | .jsLineCmt => tLineCmt c s
  | .css => tCSS c s
  | .cssDqStr => tCSSStr c s
  | .cssSqStr => tCSSStr c s
  | .cssDqURL => tCSSStr c s
  | .cssSqURL => tCSSStr c s
  | .cssURL => tCSSStr c s
  | .cssBlockCmt => tBlockCmt c s
  | .cssLineCmt => tLineCmt c s
  | .errState => (c, s.length)

/-- The special closing tag (`</script` etc.) of the current element. -/
def specialTagMarker : EElement → Option (List Char)
  | .eScript => some ("</script".toList)
  | .eStyle => some ("</style".toList)
  | .eTextarea => some ("</textarea".toList)
  | .eTitle => some ("</title".toList)
  | .eNone => none

/-- Run inner transitions over a whole delimited attribute value. -/
def runInner : Nat → ECtx → List Char → ECtx
  | 0, c, _ => c
  | fuel + 1, c, s =>
    if s.isEmpty then c
    else
      let (c', n) := transitionOn c s
      runInner fuel c' (s.drop n)

/-- One driver step over the remaining text (Go `contextAfterText`):
inside a delimited attribute value the value runs to the delimiter and
exiting discards everything but the element; outside, a special closing
tag bluntly ends script/style/RCDATA content, and otherwise the state's
transition processes the text up to any such marker. -/
def escTextStep (fuel : Nat) (c : ECtx) (s : List Char) : ECtx × Nat :=
  if c.delim = .dNone then
    match specialTagMarker c.element with
    | some marker =>
      match indexOfSub (s.map Char.toLower) marker with
      | some 0 => ({ state := .tag }, marker.length)
      | some i => transitionOn c (s.take i)
      | none => transitionOn c s
    | none => transitionOn c s
  else
    let ends :=
      match c.delim with
      | .dDouble => ['"']
      | .dSingle => ['\'']
      | _ => ['\t', '\n', '\x0c', '\r', ' ', '>']
    match indexOfAny s ends with
    | none => (runInner fuel c s, s.length)
    | some i =>
      ({ state := .tag, element := c.element },
        if c.delim = .dSpaceOrTagEnd then i else i + 1)

/-- Drive the machine over a whole text chunk. -/
def escTextRun : Nat → ECtx → List Char → ECtx
  | 0, c, _ => c
  | fuel + 1, c, s =>
    if s.isEmpty then c
    else
      let (c', n) := escTextStep (fuel + 1) c s
      escTextRun fuel c' (s.drop n)

/-- The context after escaping a literal text node from the empty
starting context. -/
def escapeTextCtx (s : String) : ECtx :=
  escTextRun (4 * (s.toList.length + 2)) {} s.toList

/-- C9 counterexample: `<a href=x` (no closing `>`) does not end in state
Tag as the claim says; it ends inside the unquoted URL attribute value
(state URL, space-or-tag-end delimiter, urlPart PreQuery), exactly as the
repository's own escape test table records — it is `<a href=x ` with a
trailing space that ends in state Tag. -/
theorem escape_href_unclosed_not_tag :
    (escapeTextCtx "<a href=x").state ≠ .tag
      ∧ escapeTextCtx "<a href=x"
          = { state := .url, delim := .dSpaceOrTagEnd, urlPart := .uPreQuery } := by
  decide

/-- C9 (amended): from the empty context, `<a href=x>` ends in Text;
`<a href=x` (no closing `>`) ends in URL with space-or-tag-end delimiter
and urlPart PreQuery (`<a href=x ` with a trailing space ends in Tag);
`<a href='http:` ends in URL with single-quote delimiter and PreQuery;
`<script>foo` ends in JS with jsCtx DivOp and element Script;
`<a onclick="/foo/` ends in JS with jsCtx DivOp and double-quote
delimiter; and `<a onclick="/foo[/]` ends in JSRegexp. -/
theorem escape_text_context_classification :
    escapeTextCtx "<a href=x>" = { state := .text }
      ∧ escapeTextCtx "<a href=x"
          = { state := .url, delim := .dSpaceOrTagEnd, urlPart := .uPreQuery }
      ∧ escapeTextCtx "<a href=x " = { state := .tag }
      ∧ escapeTextCtx "<a href='http:"
          = { state := .url, delim := .dSingle, urlPart := .uPreQuery }
      ∧ escapeTextCtx "<script>foo"
          = { state := .js, jsCtx := .jDivOp, element := .eScript }
      ∧ escapeTextCtx "<a onclick=\"/foo/"
          = { state := .js, delim := .dDouble, jsCtx := .jDivOp }
      ∧ escapeTextCtx "<a onclick=\"/foo[/]"
          = { state := .jsRegexp, delim := .dDouble } := by
  decide

/-!
## C6: the first lexer variant's full state machine (state.go / lexer.go)

States are the `stateFn`s of state.go; one `stepLex` invocation models
one `l.state = l.state(l)` call of `next()`, returning the tokens pushed
onto the queue during the call.  The `lexer` struct has no `define`
field in lexer.go although `lexFile` reads it — a fragment
inconsistency — so `Lx.define` is modelled from that single use.
`unicode.IsLetter`/`IsDigit` are modelled on the ASCII range.
-/

/-- `strings.LastIndex(pre, "\n")` specialised to one-character needles:
index of the last newline of `pre`, or `-1` when there is none. -/
def lastIndexOfNl (pre : List Char) : Int :=
  (pre.length : Int) - 1 - ((pre.reverse.takeWhile (fun c => c ≠ '\n')).length : Int)

/-- `lexer.position`: 1-based line and column of an input offset, or
`(-1, -1)` for an out-of-range offset. -/
def lxPosition (l : Lx) (posi : Int) : Int × Int :=
  if 0 ≤ posi ∧ posi ≤ (l.input.length : Int) then
    let pre := l.input.take posi.toNat
    let row : Int := 1 + (pre.count '\n' : Int)
    let col : Int :=
      if 1 < row then posi + 1 - (1 + lastIndexOfNl pre) else posi + 1
    (row, col)
  else (-1, -1)

/-- A lexed token (`token` in token.go): type, position, value. -/
structure LToken where
  typ : TokenT
  tpos : Int × Int
  val : List Char
  deriving Repr, DecidableEq

/-- `lexer.emit`: push a token of type `typ` with value `input[pin:pos]`,
then pin the cursor. -/
def Lx.emitTok (l : Lx) (typ : TokenT) : LToken × Lx :=
  (⟨typ, lxPosition l (l.pin : Int), (l.input.take l.pos).drop l.pin⟩,
    { l with pin := l.pos })

/-- `lexer.emitValue`: push a token with an explicit position and value,
then pin the cursor. -/
def Lx.emitValueTok (l : Lx) (typ : TokenT) (posi : Int) (val : List Char) :
    LToken × Lx :=
  (⟨typ, lxPosition l posi, val⟩, { l with pin := l.pos })

/-- `lexer.skip`. -/
def Lx.skip (l : Lx) : Lx := { l with pin := l.pos }

/-- `emitText` (state.go): emit the text pending up to `pos - offset`
as a `tokenText`, if any. -/
def emitTextTok (l : Lx) (offset : Nat) : List LToken × Lx :=
  let pinT := l.pos - offset
  if l.pin < pinT then
    ([⟨.text, lxPosition l (l.pin : Int), (l.input.take pinT).drop l.pin⟩],
      { l with pin := pinT })
  else ([], l)

/-- `lexer.acceptUntilRune`: consume up to and including the first
occurrence of `r`; the position is unchanged when `r` does not occur. -/
def Lx.acceptUntilRune (l : Lx) (r : Char) : List Char × Lx :=
  match indexOfAnyFrom l.input [r] l.pos with
  | some i => ((l.input.take (i + 1)).drop l.pos, { l with pos := i + 1, width := 1 })
  | none => ([], { l with width := 0 })

/-- `lexer.acceptUntilPrefix`: consume up to (excluding) the first
occurrence of `p`; the position is unchanged when `p` does not occur. -/
def Lx.acceptUntilPrefixOf (l : Lx) (p : List Char) : List Char × Lx :=
  if l.pos < l.input.length then
    match indexOfSubFrom l.input p l.pos with
    | some i => ((l.input.take i).drop l.pos, { l with pos := i, width := i - l.pos })
    | none => ([], l)
  else ([], l)

/-- The first lexer variant's states (the `stateFn`s of state.go). -/
inductive LState where
  | file | eofSt | errorSt | comment | tagStart | tagEnd | tagComment
  | tagContent | identifier | quote | number | indexSt
  deriving Repr, DecidableEq

/-- `errorf`: emit a `tokenError` carrying the message, positioned at
the pin, and move to the error state. -/
def errorfStep (l : Lx) (msg : List Char) : Lx × LState × List LToken :=
  let (t, l') := l.emitValueTok .error (l.pin : Int) msg
  (l', .errorSt, [t])

/-- `isSpace` (state.go). -/
def isSpaceGo (r : Char) : Bool :=
  r = ' ' ∨ r = '\t' ∨ r = '\n' ∨ r = '\r'

/-- `isAlphaNumeric` (state.go); `unicode.IsLetter`/`IsDigit` are
modelled on the ASCII range. -/
def isAlphaNumericGo (r : Char) : Bool :=
  r = '_' ∨ r.isAlpha ∨ r.isDigit

/-- The `symbols` map of state.go; a missing key yields the map's zero
value, which is `tokenError` (never reached by the lexer). -/
def symbolType : List Char → TokenT
  | ['('] => .leftParen
  | [')'] => .rightParen
  | ['*'] => .star
  | ['*', '='] => .starEq
  | ['/'] => .slash
  | ['/', '='] => .slashEq
  | ['%'] => .percent
  | ['%', '='] => .percentEq
  | ['+'] => .plus
  | ['+', '='] => .plusEq
  | ['-'] => .minus
  | ['-', '='] => .minusEq
  | ['?'] => .question
  | ['='] => .eq
  | ['=', '='] => .eqEq
  | [':'] => .colon
  | [':', '='] => .colonEq
  | ['!'] => .notT
  | ['!', '='] => .notEq
  | ['>'] => .gt
  | ['>', '='] => .gtEq
  | ['<'] => .lt
  | ['<', '='] => .ltEq
  | ['&', '&'] => .andT
  | ['|', '|'] => .orT
  | _ => .error

/-- The loop of `lexFile`: scan for slashes, left braces or the end of
input.  Each iteration consumes a rune, so fuel `input.length - pos + 1`
is never exhausted. -/
def lexFileLoop : Nat → Lx → Lx × LState × List LToken
  | 0, l => (l, .file, [])
  | fuel + 1, l =>
    match l.nextRune with
    | (none, l1) =>
      let (ts, l2) := emitTextTok l1 1
      let (t, l3) := l2.emitValueTok .eofT (l2.pos : Int) []
      (l3, .eofSt, ts ++ [t])
    | (some r, l1) =>
      if r = '/' then
        if l1.define then lexFileLoop fuel l1 else (l1, .comment, [])
      else if r = '\x7b' then
        let (ts, l2) := emitTextTok l1 1
        (l2, .tagStart, ts)
      else lexFileLoop fuel l1

/-- `lexComment`: a slash was already consumed.  A line comment needs a
whitespace before the two slashes (`DecodeLastRuneInString` of the text
before them); a block comment runs until `*/` (exclusive, as
`acceptUntilPrefix` stops in front of the needle). -/
def stepComment (l : Lx) : Lx × LState × List LToken :=
  match l.nextRune with
  | (none, l1) => (l1, .file, [])
  | (some r, l1) =>
    if r = '/' then
      let ok :=
        if l1.pos < 2 then true
        else if 3 ≤ l1.pos then isSpaceGo (l1.input.getD (l1.pos - 3) '\x00')
        else false
      if ok then
        let (ts, l2) := emitTextTok l1 2
        let (_, l3) := l2.acceptUntilRune '\n'
        let (t, l4) := l3.emitTok .comment
        (l4, .file, ts ++ [t])
      else (l1, .file, [])
    else if r = '*' then
      let (ts, l2) := emitTextTok l1 2
      let (_, l3) := l2.acceptUntilPrefixOf ['*', '/']
      let (t, l4) := l3.emitTok .comment
      (l4, .file, ts ++ [t])
    else (l1, .file, [])

/-- `lexTagStart`: a left brace was already consumed. -/
def stepTagStart (l : Lx) : Lx × LState × List LToken :=
  let (t, l1) := l.emitValueTok .leftBrace ((l.pos : Int) - 1) []
  (l1, .tagContent, [t])

/-- `lexTagEnd`: a right brace was already consumed. -/
def stepTagEnd (l : Lx) : Lx × LState × List LToken :=
  let (t, l1) := l.emitValueTok .rightBrace ((l.pos : Int) - 1) []
  (l1, .file, [t])

/-- `lexTagComment`: skip to past the closing marker or fail. -/
def stepTagComment (l : Lx) : Lx × LState × List LToken :=
  match indexOfSubFrom l.input ['*', '/', '\x7d'] l.pos with
  | some i => (Lx.skip { l with pos := i + 3 }, .file, [])
  | none => errorfStep l "unclosed comment tag".toList

/-- `lexTagContent`: dispatch on the next rune of a tag body. -/
def stepTagContent (l : Lx) : Lx × LState × List LToken :=
  match l.nextRune with
  | (none, l1) => errorfStep l1 "unclosed action".toList
  | (some r, l1) =>
    if r = '\x7d' then (l1, .tagEnd, [])
    else if r = '[' then (l1, .indexSt, [])
    else if r = '"' then (l1, .quote, [])
    else if r = '.' then (l1, .identifier, [])
    else if r ∈ sDecDigits then (l1.backup, .number, [])
    else if r = ' ' ∨ r = '\t' ∨ r = '\r' then
      let (_, l2) := l1.acceptMany [' ', '\t', '\r']
      (l2.skip, .tagContent, [])
    else if r = '(' ∨ r = ')' ∨ r = '?' then
      let (t, l2) := l1.emitValueTok
        (symbolType ((l1.input.take l1.pos).drop l1.pin)) (l1.pin : Int) []
      (l2, .tagContent, [t])
    else if r = '/' then
      match l1.accept '*' with
      | (true, l2) => (l2, .tagComment, [])
      | (false, l2) =>
        let (_, l3) := l2.accept '='
        let (t, l4) := l3.emitValueTok
          (symbolType ((l3.input.take l3.pos).drop l3.pin)) (l3.pin : Int) []
        (l4, .tagContent, [t])
    else if r ∈ ['*', '%', '+', '-', '=', ':', '!', '<', '>'] then
      let (_, l2) := l1.accept '='
      let (t, l3) := l2.emitValueTok
        (symbolType ((l2.input.take l2.pos).drop l2.pin)) (l2.pin : Int) []
      (l3, .tagContent, [t])
    else if r = '&' ∨ r = '|' then
      match l1.accept r with
      | (true, l2) =>
        let (t, l3) := l2.emitValueTok
          (symbolType ((l2.input.take l2.pos).drop l2.pin)) (l2.pin : Int) []
        (l3, .tagContent, [t])
      | (false, l2) => errorfStep l2 ("expected ".toList ++ [r, r])
    else if r = '\n' then errorfStep l1 "unclosed action".toList
    else if isAlphaNumericGo r then (l1.backup, .identifier, [])
    else errorfStep l1 "unrecognized character in tag".toList

/-- The exit of `lexIdentifier`'s loop: classify and emit the pending
word.  An empty word is unreachable from real runs (the state is only
entered with a pending rune); Go would panic indexing `word[0]`, and the
model maps it to a lex error. -/
def identEmit (l : Lx) : Lx × LState × List LToken :=
  let word := (l.input.take l.pos).drop l.pin
  match word with
  | [] => errorfStep l "empty identifier".toList
  | c :: _ =>
    let typ :=
      if c = '.' then TokenT.var
      else if word = "true".toList ∨ word = "false".toList then TokenT.bool
      else TokenT.ident
    let (t, l1) := l.emitTok typ
    (l1, .tagContent, [t])

/-- The loop of `lexIdentifier`: absorb alphanumerics (and dots of a
field chain), then classify the word. -/
def lexIdentLoop : Nat → Lx → Lx × LState × List LToken
  | 0, l => (l, .identifier, [])
  | fuel + 1, l =>
    match l.nextRune with
    | (some r, l1) =>
      if isAlphaNumericGo r then lexIdentLoop fuel l1
      else if r = '.' ∧ l1.input.getD l1.pin '\x00' = '.' then lexIdentLoop fuel l1
      else identEmit l1.backup
    | (none, l1) => identEmit l1.backup

/-- The loop of `lexQuote`: scan a quoted string, honouring backslash
escapes; an end of input or a raw newline is an error. -/
def lexQuoteLoop : Nat → Lx → Lx × LState × List LToken
  | 0, l => (l, .quote, [])
  | fuel + 1, l =>
    match l.nextRune with
    | (none, l1) => errorfStep l1 "unterminated quoted string".toList
    | (some r, l1) =>
      if r = '\\' then
        match l1.nextRune with
        | (some r2, l2) =>
          if r2 = '\n' then errorfStep l2 "unterminated quoted string".toList
          else lexQuoteLoop fuel l2
        | (none, l2) => errorfStep l2 "unterminated quoted string".toList
      else if r = '"' then
        let (t, l2) := l1.emitTok .string
        (l2, .tagContent, [t])
      else if r = '\n' then errorfStep l1 "unterminated quoted string".toList
      else lexQuoteLoop fuel l1

/-- `lexNumber`: scan a number and emit it, or fail. -/
def stepNumber (l : Lx) : Lx × LState × List LToken :=
  match scanNumber l with
  | (typ, true, l1) =>
    let (t, l2) := l1.emitTok typ
    (l2, .tagContent, [t])
  | (_, false, l1) => errorfStep l1 "bad number syntax".toList

/-- One invocation of the current state function (`l.state = l.state(l)`
in `next()`), returning the new cursor, the next state, and the tokens
pushed onto the queue during the call. -/
def stepLex : LState → Lx → Lx × LState × List LToken
  | .file, l => lexFileLoop (l.input.length - l.pos + 1) l
  | .eofSt, l =>
    let (t, l1) := l.emitValueTok .eofT (l.pos : Int) []
    (l1, .eofSt, [t])
  | .errorSt, l =>
    let (t, l1) := l.emitValueTok .error (-1) []
    (l1, .errorSt, [t])
  | .comment, l => stepComment l
  | .tagStart, l => stepTagStart l
  | .tagEnd, l => stepTagEnd l
  | .tagComment, l => stepTagComment l
  | .tagContent, l => stepTagContent l
  | .identifier, l => lexIdentLoop (l.input.length - l.pos + 2) l
  | .quote, l => lexQuoteLoop (l.input.length - l.pos + 2) l
  | .number, l => stepNumber l
  | .indexSt, l => errorfStep l "indexes are not supported yet".toList

/-- Run `n` state-function invocations, keeping only cursor and state. -/
def lexIter : Nat → Lx × LState → Lx × LState
  | 0, p => p
  | n + 1, p =>
    let (l', st', _) := stepLex p.2 p.1
    lexIter n (l', st')

/-- The tokens pushed during the first `n` state-function invocations;
since the queue is a faithful FIFO, this flat list is exactly the
sequence of tokens returned by repeated `next()` calls. -/
def lexTokens : Nat → Lx × LState → List LToken
  | 0, _ => []
  | n + 1, p =>
    let (l', st', ts) := stepLex p.2 p.1
    ts ++ lexTokens n (l', st')



-- ===== C6 proof layer: measure and primitive facts =====

/-- Weight of a state in the termination measure; the identifier weight
distinguishes a fresh word (`pos = pin`) from a pending one. -/
def wgt : LState → Lx → Nat
  | .file, _ => 1
  | .comment, _ => 2
  | .tagStart, _ => 3
  | .tagContent, _ => 2
  | .tagEnd, _ => 2
  | .identifier, l => if l.pos = l.pin then 0 else 3
  | _, _ => 0

/-- Termination measure of a lexer configuration: every state-function
invocation from a non-terminal state either reaches `lexEOF`/`lexError`
or strictly decreases it. -/
def meas (st : LState) (l : Lx) : Nat :=
  3 * (l.input.length - l.pos) + wgt st l

theorem Lx.nextRune_spec (l : Lx) :
    ∃ o l1, l.nextRune = (o, l1)
      ∧ l1.input = l.input ∧ l1.pin = l.pin ∧ l1.define = l.define
      ∧ ((l1.pos = l.pos + 1 ∧ l.pos < l.input.length ∧ l1.width = 1
            ∧ o = some (l.input.getD l.pos '\x00'))
         ∨ (l1.pos = l.pos ∧ l.input.length ≤ l.pos ∧ l1.width = 0 ∧ o = none)) := by
  by_cases h : l.pos < l.input.length
  · refine ⟨some (l.input.getD l.pos '\x00'), { l with pos := l.pos + 1, width := 1 },
      ?_, rfl, rfl, rfl, .inl ⟨rfl, h, rfl, rfl⟩⟩
    rw [Lx.nextRune, dif_pos h, List.getD_eq_getElem?_getD, List.getElem?_eq_getElem h]
    rfl
  · exact ⟨none, { l with width := 0 }, by rw [Lx.nextRune, dif_neg h], rfl, rfl, rfl,
      .inr ⟨rfl, Nat.le_of_not_lt h, rfl, rfl⟩⟩

theorem Lx.accept_spec (l : Lx) (r : Char) :
    ∃ b l1, l.accept r = (b, l1)
      ∧ l1.input = l.input ∧ l1.pin = l.pin ∧ l1.define = l.define
      ∧ ((b = true ∧ l1.pos = l.pos + 1 ∧ l.pos < l.input.length
            ∧ l.input.getD l.pos '\x00' = r)
         ∨ (b = false ∧ l1.pos = l.pos)) := by
  obtain ⟨o, l1, hn, hi, hp, hd, hc⟩ := Lx.nextRune_spec l
  rcases hc with ⟨h1, h2, h3, rfl⟩ | ⟨h1, h2, h3, rfl⟩
  · by_cases hr : l.input.getD l.pos '\x00' = r
    · refine ⟨true, l1, ?_, hi, hp, hd, .inl ⟨rfl, h1, h2, hr⟩⟩
      rw [Lx.accept, hn]
      dsimp only
      rw [if_pos hr]
    · refine ⟨false, l1.backup, ?_, hi, hp, hd, .inr ⟨rfl, ?_⟩⟩
      · rw [Lx.accept, hn]
        dsimp only
        rw [if_neg hr]
      · show l1.pos - l1.width = l.pos
        omega
  · refine ⟨false, l1.backup, ?_, hi, hp, hd, .inr ⟨rfl, ?_⟩⟩
    · rw [Lx.accept, hn]
    · show l1.pos - l1.width = l.pos
      omega

theorem Lx.acceptOne_spec (l : Lx) (v : List Char) :
    ∃ l1, l.acceptOne v = l1
      ∧ l1.input = l.input ∧ l1.pin = l.pin ∧ l1.define = l.define
      ∧ (l1.pos = l.pos + 1 ∧ l.pos < l.input.length ∨ l1.pos = l.pos) := by
  obtain ⟨o, l1, hn, hi, hp, hd, hc⟩ := Lx.nextRune_spec l
  rcases hc with ⟨h1, h2, h3, rfl⟩ | ⟨h1, h2, h3, rfl⟩
  · by_cases hr : l.input.getD l.pos '\x00' ∈ v
    · refine ⟨l1, ?_, hi, hp, hd, .inl ⟨h1, h2⟩⟩
      rw [Lx.acceptOne, hn]
      dsimp only
      rw [if_pos hr]
    · refine ⟨l1.backup, ?_, hi, hp, hd, .inr ?_⟩
      · rw [Lx.acceptOne, hn]
        dsimp only
        rw [if_neg hr]
      · show l1.pos - l1.width = l.pos
        omega
  · refine ⟨l1.backup, ?_, hi, hp, hd, .inr ?_⟩
    · rw [Lx.acceptOne, hn]
    · show l1.pos - l1.width = l.pos
      omega

theorem Lx.acceptMany_spec (l : Lx) (v : List Char) :
    ∃ cs l1, l.acceptMany v = (cs, l1)
      ∧ l1.input = l.input ∧ l1.pin = l.pin ∧ l1.define = l.define
      ∧ l1.pos = l.pos + cs.length
      ∧ l.pos + cs.length ≤ max l.pos l.input.length := by
  refine ⟨_, _, rfl, rfl, rfl, rfl, rfl, ?_⟩
  have h1 : ((l.input.drop l.pos).takeWhile (fun c => c ∈ v)).length
      ≤ (l.input.drop l.pos).length := by
    generalize l.input.drop l.pos = t
    induction t with
    | nil => simp
    | cons a q ih =>
      rw [List.takeWhile_cons]
      split
      · simpa using ih
      · simp
  rw [List.length_drop] at h1
  omega

theorem Lx.acceptPrefixOf_spec (l : Lx) (p : List Char) :
    ∃ b l1, l.acceptPrefixOf p = (b, l1)
      ∧ l1.input = l.input ∧ l1.pin = l.pin ∧ l1.define = l.define
      ∧ ((b = true ∧ l1.pos = l.pos + p.length ∧ l.pos + p.length ≤ l.input.length)
         ∨ (b = false ∧ l1.pos = l.pos)) := by
  rw [Lx.acceptPrefixOf]
  split
  · rename_i hc
    have hp : p.length ≤ (l.input.drop l.pos).length :=
      (List.isPrefixOf_iff_prefix.mp hc.2).length_le
    rw [List.length_drop] at hp
    exact ⟨true, _, rfl, rfl, rfl, rfl, .inl ⟨rfl, rfl, by omega⟩⟩
  · exact ⟨false, l, rfl, rfl, rfl, rfl, .inr ⟨rfl, rfl⟩⟩

theorem indexOfAnyAux_bounds {v : List Char} :
    ∀ {t : List Char} {k i : Nat}, indexOfAnyAux v t k = some i →
      k ≤ i ∧ i < k + t.length := by
  intro t
  induction t with
  | nil => intro k i h; simp [indexOfAnyAux] at h
  | cons c rest ih =>
    intro k i h
    rw [indexOfAnyAux] at h
    split at h
    · cases h
      simp
    · have := ih h
      simp only [List.length_cons]
      omega

theorem indexOfSubAux_bounds {pat : List Char} (hp : pat ≠ []) :
    ∀ {t : List Char} {k i : Nat}, indexOfSubAux pat t k = some i →
      k ≤ i ∧ i + pat.length ≤ k + t.length := by
  intro t
  induction t with
  | nil =>
    intro k i h
    rw [indexOfSubAux] at h
    simp [List.isEmpty_iff, hp] at h
  | cons c rest ih =>
    intro k i h
    rw [indexOfSubAux] at h
    split at h
    · rename_i hpre
      cases h
      have hlen : pat.length ≤ (c :: rest).length :=
        (List.isPrefixOf_iff_prefix.mp hpre).length_le
      simp only [List.length_cons] at hlen ⊢
      omega
    · have := ih h
      simp only [List.length_cons]
      omega

theorem Lx.acceptUntilRune_spec (l : Lx) (r : Char) :
    ∃ cs l1, l.acceptUntilRune r = (cs, l1)
      ∧ l1.input = l.input ∧ l1.pin = l.pin ∧ l1.define = l.define
      ∧ l.pos ≤ l1.pos ∧ l1.pos ≤ max l.pos l.input.length := by
  rw [Lx.acceptUntilRune]
  rcases hidx : indexOfAnyFrom l.input [r] l.pos with _ | i
  · exact ⟨[], _, rfl, rfl, rfl, rfl, le_refl _, le_max_left _ _⟩
  · have hb := indexOfAnyAux_bounds (v := [r]) hidx
    rw [List.length_drop] at hb
    refine ⟨_, _, rfl, rfl, rfl, rfl, ?_, ?_⟩ <;> simp <;> omega

theorem Lx.acceptUntilPrefixOf_spec (l : Lx) (p : List Char) (hp : p ≠ []) :
    ∃ cs l1, l.acceptUntilPrefixOf p = (cs, l1)
      ∧ l1.input = l.input ∧ l1.pin = l.pin ∧ l1.define = l.define
      ∧ l.pos ≤ l1.pos ∧ l1.pos ≤ max l.pos l.input.length := by
  rw [Lx.acceptUntilPrefixOf]
  split
  · rcases hidx : indexOfSubFrom l.input p l.pos with _ | i
    · exact ⟨[], l, rfl, rfl, rfl, rfl, le_refl _, le_max_left _ _⟩
    · have hb := indexOfSubAux_bounds hp hidx
      rw [List.length_drop] at hb
      have hp1 : 1 ≤ p.length := by
        cases p with
        | nil => exact absurd rfl hp
        | cons a q => simp
      refine ⟨_, _, rfl, rfl, rfl, rfl, ?_, ?_⟩ <;> simp <;> omega
  · exact ⟨[], l, rfl, rfl, rfl, rfl, le_refl _, le_max_left _ _⟩

theorem Lx.emitTok_spec (l : Lx) (ty : TokenT) :
    ∃ u l1, l.emitTok ty = (u, l1) ∧ u.typ = ty
      ∧ l1.input = l.input ∧ l1.pos = l.pos ∧ l1.pin = l.pos ∧ l1.define = l.define :=
  ⟨_, _, rfl, rfl, rfl, rfl, rfl, rfl⟩

theorem Lx.emitValueTok_spec (l : Lx) (ty : TokenT) (posi : Int) (val : List Char) :
    ∃ u l1, l.emitValueTok ty posi val = (u, l1) ∧ u.typ = ty
      ∧ l1.input = l.input ∧ l1.pos = l.pos ∧ l1.pin = l.pos ∧ l1.define = l.define :=
  ⟨_, _, rfl, rfl, rfl, rfl, rfl, rfl⟩

theorem errorfStep_spec (l : Lx) (msg : List Char) :
    ∃ u l1, errorfStep l msg = (l1, .errorSt, [u]) ∧ u.typ = .error
      ∧ l1.input = l.input ∧ l1.pos = l.pos ∧ l1.define = l.define :=
  ⟨_, _, rfl, rfl, rfl, rfl, rfl⟩

theorem emitTextTok_spec (l : Lx) (k : Nat) :
    ∃ ts l1, emitTextTok l k = (ts, l1)
      ∧ l1.input = l.input ∧ l1.pos = l.pos ∧ l1.define = l.define
      ∧ ∀ u ∈ ts, u.typ = TokenT.text := by
  rw [emitTextTok]
  split
  · exact ⟨_, _, rfl, rfl, rfl, rfl, by intro u hu; simp at hu; rw [hu]⟩
  · exact ⟨[], l, rfl, rfl, rfl, rfl, by intro u hu; simp at hu⟩

theorem identEmit_spec (l : Lx) :
    (∃ u l1, identEmit l = (l1, .tagContent, [u])
        ∧ (u.typ = TokenT.var ∨ u.typ = TokenT.bool ∨ u.typ = TokenT.ident)
        ∧ l1.input = l.input ∧ l1.pos = l.pos ∧ l1.pin = l.pos ∧ l1.define = l.define
        ∧ l.pin < l.pos)
    ∨ (∃ u l1, identEmit l = (l1, .errorSt, [u]) ∧ u.typ = .error
        ∧ l1.input = l.input ∧ l1.pos = l.pos ∧ l1.define = l.define) := by
  rw [identEmit]
  rcases hw : (l.input.take l.pos).drop l.pin with _ | ⟨c, w⟩
  · right
    obtain ⟨u, l1, he, hu, hi, hp, hd⟩ := errorfStep_spec l "empty identifier".toList
    exact ⟨u, l1, by rw [he], hu, hi, hp, hd⟩
  · left
    dsimp only
    have hlen : l.pin < l.pos := by
      have h1 : ((l.input.take l.pos).drop l.pin).length ≠ 0 := by
        rw [hw]; simp
      rw [List.length_drop, List.length_take] at h1
      omega
    obtain ⟨u, l1, he, hu, hi, hp, hpin, hd⟩ :=
      Lx.emitTok_spec l (if c = '.' then TokenT.var
        else if (c :: w) = "true".toList ∨ (c :: w) = "false".toList then TokenT.bool
        else TokenT.ident)
    refine ⟨u, l1, by rw [he], ?_, hi, hp, hpin, hd, hlen⟩
    rw [hu]
    split
    · exact .inl rfl
    · split
      · exact .inr (.inl rfl)
      · exact .inr (.inr rfl)

theorem scanNumber_spec (l : Lx) (t : TokenT) (ok : Bool) (l2 : Lx)
    (h : l.pos ≤ l.input.length) (hEq : scanNumber l = (t, ok, l2)) :
    l2.input = l.input ∧ l2.pin = l.pin ∧ l2.define = l.define
    ∧ l.pos ≤ l2.pos ∧ l2.pos ≤ l.input.length
    ∧ (ok = true → l.pos < l2.pos)
    ∧ (t = TokenT.int ∨ t = TokenT.float) := by
  obtain ⟨b, la, hpre, hai, hap, had, hac⟩ := Lx.acceptPrefixOf_spec l ['0', 'x']
  have e1 : la.input.length = l.input.length := by rw [hai]
  have hpl : (['0', 'x'] : List Char).length = 2 := rfl
  simp only [scanNumber] at hEq
  rw [hpre] at hEq
  rcases hac with ⟨rfl, hp1, hp2⟩ | ⟨rfl, hp1⟩
  · -- hexadecimal branch
    try dsimp only at hEq
    obtain ⟨cs, lb, hm, hbi, hbp, hbd, hbpos, hbb⟩ := Lx.acceptMany_spec la sHexDigits
    have e2 : lb.input.length = l.input.length := by rw [hbi]; exact e1
    rw [hm] at hEq
    try dsimp only at hEq
    rcases cs with _ | ⟨c0, cs'⟩
    · simp only [List.isEmpty_nil, if_true] at hEq
      cases hEq
      have h0 : ([] : List Char).length = 0 := rfl
      refine ⟨by rw [hbi, hai], by rw [hbp, hap], by rw [hbd, had], ?_, ?_, ?_, .inl rfl⟩
      · omega
      · omega
      · exact fun hx => absurd hx (by decide)
    · simp only [List.isEmpty_cons, Bool.false_eq_true, if_false] at hEq
      have hc1 : (c0 :: cs').length = cs'.length + 1 := rfl
      have hlb : lb.pos ≤ lb.input.length := by omega
      obtain ⟨bd, lc, hdot, hci, hcp, hcd, hcc⟩ := Lx.accept_spec lb '.'
      have e3 : lc.input.length = l.input.length := by rw [hci]; exact e2
      rw [hdot] at hEq
      rcases hcc with ⟨rfl, hq1, hq2, hq3⟩ | ⟨rfl, hq1⟩
      · try dsimp only at hEq
        cases hEq
        refine ⟨by rw [hci, hbi, hai], by rw [hcp, hbp, hap], by rw [hcd, hbd, had],
          ?_, ?_, ?_, .inl rfl⟩
        · omega
        · omega
        · exact fun hx => absurd hx (by decide)
      · try dsimp only at hEq
        obtain ⟨cs2, ld, hm2, hdi, hdp, hdd, hdpos, hdb⟩ := Lx.acceptMany_spec lc sAlphaNum
        have e4 : ld.input.length = l.input.length := by rw [hdi]; exact e3
        rw [hm2] at hEq
        try dsimp only at hEq
        rcases cs2 with _ | ⟨d0, ds'⟩
        · simp only [List.isEmpty_nil, if_true] at hEq
          cases hEq
          have h0 : ([] : List Char).length = 0 := rfl
          refine ⟨by rw [hdi, hci, hbi, hai], by rw [hdp, hcp, hbp, hap],
            by rw [hdd, hcd, hbd, had], ?_, ?_, ?_, .inl rfl⟩
          · omega
          · omega
          · intro hx
            omega
        · simp only [List.isEmpty_cons, Bool.false_eq_true, if_false] at hEq
          cases hEq
          have hd1 : (d0 :: ds').length = ds'.length + 1 := rfl
          refine ⟨by rw [hdi, hci, hbi, hai], by rw [hdp, hcp, hbp, hap],
            by rw [hdd, hcd, hbd, had], ?_, ?_, ?_, .inl rfl⟩
          · omega
          · omega
          · exact fun hx => absurd hx (by decide)
  · -- decimal branch
    try dsimp only at hEq
    obtain ⟨cs, lb, hm, hbi, hbp, hbd, hbpos, hbb⟩ := Lx.acceptMany_spec la sDecDigits
    have e2 : lb.input.length = l.input.length := by rw [hbi]; exact e1
    rw [hm] at hEq
    try dsimp only at hEq
    rcases cs with _ | ⟨c0, cs'⟩
    · simp only [List.isEmpty_nil, if_true] at hEq
      cases hEq
      have h0 : ([] : List Char).length = 0 := rfl
      refine ⟨by rw [hbi, hai], by rw [hbp, hap], by rw [hbd, had], ?_, ?_, ?_, .inl rfl⟩
      · omega
      · omega
      · exact fun hx => absurd hx (by decide)
    · simp only [List.isEmpty_cons, Bool.false_eq_true, if_false] at hEq
      have hc1 : (c0 :: cs').length = cs'.length + 1 := rfl
      have hlb : lb.pos ≤ lb.input.length := by omega
      obtain ⟨bd, lc, hdot, hci, hcp, hcd, hcc⟩ := Lx.accept_spec lb '.'
      have e3 : lc.input.length = l.input.length := by rw [hci]; exact e2
      rw [hdot] at hEq
      rcases hcc with ⟨rfl, hq1, hq2, hq3⟩ | ⟨rfl, hq1⟩
      · -- a fraction follows the digit run
        try dsimp only at hEq
        obtain ⟨fs, ld, hmf, hdi, hdp, hdd, hdpos, hdb⟩ := Lx.acceptMany_spec lc sDecDigits
        have e4 : ld.input.length = l.input.length := by rw [hdi]; exact e3
        rw [hmf] at hEq
        try dsimp only at hEq
        have hlc : lc.pos ≤ lc.input.length := by omega
        rcases fs with _ | ⟨f0, fs'⟩
        · simp only [List.isEmpty_nil, if_true] at hEq
          try dsimp only at hEq
          cases hEq
          have h0 : ([] : List Char).length = 0 := rfl
          refine ⟨by rw [hdi, hci, hbi, hai], by rw [hdp, hcp, hbp, hap],
            by rw [hdd, hcd, hbd, had], ?_, ?_, ?_, .inl rfl⟩
          · omega
          · omega
          · exact fun hx => absurd hx (by decide)
        · simp only [List.isEmpty_cons, Bool.false_eq_true, if_false] at hEq
          try dsimp only at hEq
          have hf1 : (f0 :: fs').length = fs'.length + 1 := rfl
          have hld : ld.pos ≤ ld.input.length := by omega
          -- exponent part, carrying tokenFloat
          obtain ⟨be, le, hexp, hei, hep, hed, hec⟩ := Lx.accept_spec ld 'e'
          have e5 : le.input.length = l.input.length := by rw [hei]; exact e4
          rw [hexp] at hEq
          rcases hec with ⟨rfl, hr1, hr2, hr3⟩ | ⟨rfl, hr1⟩
          · try dsimp only at hEq
            obtain ⟨lf, hone, hfi, hfp, hfd, hfc⟩ := Lx.acceptOne_spec le ['+', '-']
            have e6 : lf.input.length = l.input.length := by rw [hfi]; exact e5
            rw [hone] at hEq
            try dsimp only at hEq
            obtain ⟨es, lg, hme, hgi, hgp, hgd, hgpos, hgb⟩ := Lx.acceptMany_spec lf sDecDigits
            have e7 : lg.input.length = l.input.length := by rw [hgi]; exact e6
            rw [hme] at hEq
            try dsimp only at hEq
            have hlf : lf.pos ≤ lf.input.length := by omega
            rcases es with _ | ⟨g0, gs'⟩
            · simp only [List.isEmpty_nil, if_true] at hEq
              cases hEq
              have h0 : ([] : List Char).length = 0 := rfl
              refine ⟨by rw [hgi, hfi, hei, hdi, hci, hbi, hai],
                by rw [hgp, hfp, hep, hdp, hcp, hbp, hap],
                by rw [hgd, hfd, hed, hdd, hcd, hbd, had], ?_, ?_, ?_, .inr rfl⟩
              · omega
              · omega
              · exact fun hx => absurd hx (by decide)
            · simp only [List.isEmpty_cons, Bool.false_eq_true, if_false] at hEq
              have hg1 : (g0 :: gs').length = gs'.length + 1 := rfl
              have hlg : lg.pos ≤ lg.input.length := by omega
              obtain ⟨suf, lh, hms, hhi, hhp, hhd, hhpos, hhb⟩ := Lx.acceptMany_spec lg sAlphaNum
              have e8 : lh.input.length = l.input.length := by rw [hhi]; exact e7
              rw [hms] at hEq
              try dsimp only at hEq
              rcases suf with _ | ⟨s0, ss'⟩
              · simp only [List.isEmpty_nil, if_true] at hEq
                cases hEq
                have h0 : ([] : List Char).length = 0 := rfl
                refine ⟨by rw [hhi, hgi, hfi, hei, hdi, hci, hbi, hai],
                  by rw [hhp, hgp, hfp, hep, hdp, hcp, hbp, hap],
                  by rw [hhd, hgd, hfd, hed, hdd, hcd, hbd, had], ?_, ?_, ?_, .inr rfl⟩
                · omega
                · omega
                · intro hx
                  omega
              · simp only [List.isEmpty_cons, Bool.false_eq_true, if_false] at hEq
                cases hEq
                have hs1 : (s0 :: ss').length = ss'.length + 1 := rfl
                refine ⟨by rw [hhi, hgi, hfi, hei, hdi, hci, hbi, hai],
                  by rw [hhp, hgp, hfp, hep, hdp, hcp, hbp, hap],
                  by rw [hhd, hgd, hfd, hed, hdd, hcd, hbd, had], ?_, ?_, ?_, .inr rfl⟩
                · omega
                · omega
                · exact fun hx => absurd hx (by decide)
          · -- no exponent: trailing alphanumeric check with tokenFloat
            try dsimp only at hEq
            obtain ⟨suf, lh, hms, hhi, hhp, hhd, hhpos, hhb⟩ := Lx.acceptMany_spec le sAlphaNum
            have e8 : lh.input.length = l.input.length := by rw [hhi]; exact e5
            rw [hms] at hEq
            try dsimp only at hEq
            have hle : le.pos ≤ le.input.length := by omega
            rcases suf with _ | ⟨s0, ss'⟩
            · simp only [List.isEmpty_nil, if_true] at hEq
              cases hEq
              have h0 : ([] : List Char).length = 0 := rfl
              refine ⟨by rw [hhi, hei, hdi, hci, hbi, hai],
                by rw [hhp, hep, hdp, hcp, hbp, hap],
                by rw [hhd, hed, hdd, hcd, hbd, had], ?_, ?_, ?_, .inr rfl⟩
              · omega
              · omega
              · intro hx
                omega
            · simp only [List.isEmpty_cons, Bool.false_eq_true, if_false] at hEq
              cases hEq
              have hs1 : (s0 :: ss').length = ss'.length + 1 := rfl
              refine ⟨by rw [hhi, hei, hdi, hci, hbi, hai],
                by rw [hhp, hep, hdp, hcp, hbp, hap],
                by rw [hhd, hed, hdd, hcd, hbd, had], ?_, ?_, ?_, .inr rfl⟩
              · omega
              · omega
              · exact fun hx => absurd hx (by decide)
      · -- no fraction: leading-zero check, then possibly an exponent
        try dsimp only at hEq
        have hlc : lc.pos ≤ lc.input.length := by omega
        by_cases hz : lc.input.getD lc.pin '\x00' = '0'
        · rw [if_pos hz] at hEq
          try dsimp only at hEq
          cases hEq
          refine ⟨by rw [hci, hbi, hai], by rw [hcp, hbp, hap], by rw [hcd, hbd, had],
            ?_, ?_, ?_, .inl rfl⟩
          · omega
          · omega
          · exact fun hx => absurd hx (by decide)
        · rw [if_neg hz] at hEq
          try dsimp only at hEq
          obtain ⟨be, le, hexp, hei, hep, hed, hec⟩ := Lx.accept_spec lc 'e'
          have e5 : le.input.length = l.input.length := by rw [hei]; exact e3
          rw [hexp] at hEq
          rcases hec with ⟨rfl, hr1, hr2, hr3⟩ | ⟨rfl, hr1⟩
          · try dsimp only at hEq
            obtain ⟨lf, hone, hfi, hfp, hfd, hfc⟩ := Lx.acceptOne_spec le ['+', '-']
            have e6 : lf.input.length = l.input.length := by rw [hfi]; exact e5
            rw [hone] at hEq
            try dsimp only at hEq
            obtain ⟨es, lg, hme, hgi, hgp, hgd, hgpos, hgb⟩ := Lx.acceptMany_spec lf sDecDigits
            have e7 : lg.input.length = l.input.length := by rw [hgi]; exact e6
            rw [hme] at hEq
            try dsimp only at hEq
            have hlf : lf.pos ≤ lf.input.length := by omega
            rcases es with _ | ⟨g0, gs'⟩
            · simp only [List.isEmpty_nil, if_true] at hEq
              cases hEq
              have h0 : ([] : List Char).length = 0 := rfl
              refine ⟨by rw [hgi, hfi, hei, hci, hbi, hai],
                by rw [hgp, hfp, hep, hcp, hbp, hap],
                by rw [hgd, hfd, hed, hcd, hbd, had], ?_, ?_, ?_, .inl rfl⟩
              · omega
              · omega
              · exact fun hx => absurd hx (by decide)
            · simp only [List.isEmpty_cons, Bool.false_eq_true, if_false] at hEq
              have hg1 : (g0 :: gs').length = gs'.length + 1 := rfl
              have hlg : lg.pos ≤ lg.input.length := by omega
              obtain ⟨suf, lh, hms, hhi, hhp, hhd, hhpos, hhb⟩ := Lx.acceptMany_spec lg sAlphaNum
              have e8 : lh.input.length = l.input.length := by rw [hhi]; exact e7
              rw [hms] at hEq
              try dsimp only at hEq
              rcases suf with _ | ⟨s0, ss'⟩
              · simp only [List.isEmpty_nil, if_true] at hEq
                cases hEq
                have h0 : ([] : List Char).length = 0 := rfl
                refine ⟨by rw [hhi, hgi, hfi, hei, hci, hbi, hai],
                  by rw [hhp, hgp, hfp, hep, hcp, hbp, hap],
                  by rw [hhd, hgd, hfd, hed, hcd, hbd, had], ?_, ?_, ?_, .inr rfl⟩
                · omega
                · omega
                · intro hx
                  omega
              · simp only [List.isEmpty_cons, Bool.false_eq_true, if_false] at hEq
                cases hEq
                have hs1 : (s0 :: ss').length = ss'.length + 1 := rfl
                refine ⟨by rw [hhi, hgi, hfi, hei, hci, hbi, hai],
                  by rw [hhp, hgp, hfp, hep, hcp, hbp, hap],
                  by rw [hhd, hgd, hfd, hed, hcd, hbd, had], ?_, ?_, ?_, .inr rfl⟩
                · omega
                · omega
                · exact fun hx => absurd hx (by decide)
          · -- plain integer: trailing alphanumeric check with tokenInt
            try dsimp only at hEq
            obtain ⟨suf, lh, hms, hhi, hhp, hhd, hhpos, hhb⟩ := Lx.acceptMany_spec le sAlphaNum
            have e8 : lh.input.length = l.input.length := by rw [hhi]; exact e5
            rw [hms] at hEq
            try dsimp only at hEq
            have hle : le.pos ≤ le.input.length := by omega
            rcases suf with _ | ⟨s0, ss'⟩
            · simp only [List.isEmpty_nil, if_true] at hEq
              cases hEq
              have h0 : ([] : List Char).length = 0 := rfl
              refine ⟨by rw [hhi, hei, hci, hbi, hai],
                by rw [hhp, hep, hcp, hbp, hap],
                by rw [hhd, hed, hcd, hbd, had], ?_, ?_, ?_, .inl rfl⟩
              · omega
              · omega
              · intro hx
                omega
            · simp only [List.isEmpty_cons, Bool.false_eq_true, if_false] at hEq
              cases hEq
              have hs1 : (s0 :: ss').length = ss'.length + 1 := rfl
              refine ⟨by rw [hhi, hei, hci, hbi, hai],
                by rw [hhp, hep, hcp, hbp, hap],
                by rw [hhd, hed, hcd, hbd, had], ?_, ?_, ?_, .inl rfl⟩
              · omega
              · omega
              · exact fun hx => absurd hx (by decide)

/-- What one state-function invocation from a non-terminal state
guarantees: the input is fixed, the position stays in range, the
tag-content invariant (`pin = pos` on entry to `lexTagContent`) is
re-established, the measure drops unless a terminal state is reached,
and terminal tokens appear exactly at the transition into the matching
terminal state, preceded only by non-terminal tokens. -/
def StepOut (l : Lx) (st : LState) (r : Lx × LState × List LToken) : Prop :=
  r.1.input = l.input
  ∧ r.1.pos ≤ l.input.length
  ∧ (r.2.1 = .tagContent → r.1.pin = r.1.pos)
  ∧ (r.2.1 = .eofSt ∨ r.2.1 = .errorSt ∨ meas r.2.1 r.1 < meas st l)
  ∧ (r.2.1 = .eofSt → ∃ pre u, r.2.2 = pre ++ [u] ∧ u.typ = .eofT
      ∧ ∀ v ∈ pre, v.typ ≠ TokenT.eofT ∧ v.typ ≠ TokenT.error)
  ∧ (r.2.1 = .errorSt → ∃ pre u, r.2.2 = pre ++ [u] ∧ u.typ = .error
      ∧ ∀ v ∈ pre, v.typ ≠ TokenT.eofT ∧ v.typ ≠ TokenT.error)
  ∧ (r.2.1 ≠ .eofSt → r.2.1 ≠ .errorSt →
      ∀ v ∈ r.2.2, v.typ ≠ TokenT.eofT ∧ v.typ ≠ TokenT.error)

theorem StepOut.mk' (l : Lx) (st : LState) (l1 : Lx) (st1 : LState) (ts : List LToken)
    (c1 : l1.input = l.input) (c2 : l1.pos ≤ l.input.length)
    (c3 : st1 = .tagContent → l1.pin = l1.pos)
    (c4 : st1 = .eofSt ∨ st1 = .errorSt ∨ meas st1 l1 < meas st l)
    (c5 : st1 = .eofSt → ∃ pre u, ts = pre ++ [u] ∧ u.typ = .eofT
      ∧ ∀ v ∈ pre, v.typ ≠ TokenT.eofT ∧ v.typ ≠ TokenT.error)
    (c6 : st1 = .errorSt → ∃ pre u, ts = pre ++ [u] ∧ u.typ = .error
      ∧ ∀ v ∈ pre, v.typ ≠ TokenT.eofT ∧ v.typ ≠ TokenT.error)
    (c7 : st1 ≠ .eofSt → st1 ≠ .errorSt →
      ∀ v ∈ ts, v.typ ≠ TokenT.eofT ∧ v.typ ≠ TokenT.error) :
    StepOut l st (l1, st1, ts) :=
  ⟨c1, c2, c3, c4, c5, c6, c7⟩

theorem lexFileLoop_spec (fuel : Nat) : ∀ (l : Lx),
    l.pos ≤ l.input.length → l.input.length < fuel + l.pos →
    ∃ l1 st1 ts, lexFileLoop fuel l = (l1, st1, ts)
      ∧ l1.input = l.input ∧ l1.pos ≤ l.input.length
      ∧ ((st1 = .eofSt ∧ ∃ pre u, ts = pre ++ [u] ∧ u.typ = TokenT.eofT
            ∧ ∀ v ∈ pre, v.typ ≠ TokenT.eofT ∧ v.typ ≠ TokenT.error)
         ∨ ((st1 = .comment ∨ st1 = .tagStart)
            ∧ (∀ v ∈ ts, v.typ ≠ TokenT.eofT ∧ v.typ ≠ TokenT.error)
            ∧ meas st1 l1 < meas .file l)) := by
  induction fuel with
  | zero =>
    intro l h1 h2
    exact absurd h1 (by omega)
  | succ fuel ih =>
    intro l h1 h2
    obtain ⟨o, l1, hn, hi1, hp1, hd1, hc⟩ := Lx.nextRune_spec l
    have bi1 : l1.input.length = l.input.length := by rw [hi1]
    simp only [lexFileLoop]
    rw [hn]
    rcases hc with ⟨hq1, hq2, hq3, rfl⟩ | ⟨hq1, hq2, hq3, rfl⟩
    · dsimp only
      by_cases hc1 : l.input.getD l.pos '\x00' = '/'
      · rw [if_pos hc1]
        cases hdef : l1.define
        · simp only [hdef, Bool.false_eq_true, if_false]
          refine ⟨l1, .comment, [], rfl, hi1, by omega, .inr ⟨.inl rfl, by simp, ?_⟩⟩
          simp only [meas, wgt]
          omega
        · simp only [hdef, if_true]
          obtain ⟨l2, st2, ts2, he2, hi2, hp2, hdisj⟩ := ih l1 (by omega) (by omega)
          refine ⟨l2, st2, ts2, he2, by rw [hi2, hi1], by omega, ?_⟩
          rcases hdisj with h | ⟨hst, hts, hme⟩
          · exact .inl h
          · refine .inr ⟨hst, hts, lt_trans hme ?_⟩
            simp only [meas, wgt]
            omega
      · rw [if_neg hc1]
        by_cases hc2 : l.input.getD l.pos '\x00' = '\x7b'
        · rw [if_pos hc2]
          obtain ⟨ts, l2, hemit, hei, hep, hed, htyp⟩ := emitTextTok_spec l1 1
          have bi2 : l2.input.length = l.input.length := by rw [hei, hi1]
          rw [hemit]
          dsimp only
          refine ⟨l2, .tagStart, ts, rfl, by rw [hei, hi1], by omega,
            .inr ⟨.inr rfl, ?_, ?_⟩⟩
          · intro v hv
            rw [htyp v hv]
            exact ⟨by decide, by decide⟩
          · simp only [meas, wgt]
            omega
        · rw [if_neg hc2]
          obtain ⟨l2, st2, ts2, he2, hi2, hp2, hdisj⟩ := ih l1 (by omega) (by omega)
          refine ⟨l2, st2, ts2, he2, by rw [hi2, hi1], by omega, ?_⟩
          rcases hdisj with h | ⟨hst, hts, hme⟩
          · exact .inl h
          · refine .inr ⟨hst, hts, lt_trans hme ?_⟩
            simp only [meas, wgt]
            omega
    · dsimp only
      obtain ⟨ts, l2, hemit, hei, hep, hed, htyp⟩ := emitTextTok_spec l1 1
      rw [hemit]
      obtain ⟨u, l3, hev, hut, hvi, hvp, hvpin, hvd⟩ :=
        Lx.emitValueTok_spec l2 .eofT (l2.pos : Int) []
      rw [hev]
      dsimp only
      refine ⟨l3, .eofSt, ts ++ [u], rfl, by rw [hvi, hei, hi1], by omega,
        .inl ⟨rfl, ts, u, rfl, hut, ?_⟩⟩
      intro v hv
      rw [htyp v hv]
      exact ⟨by decide, by decide⟩

theorem lexIdentLoop_spec (fuel : Nat) : ∀ (l : Lx),
    l.pos ≤ l.input.length → l.input.length < fuel + l.pos →
    ∃ l1 st1 ts, lexIdentLoop fuel l = (l1, st1, ts)
      ∧ l1.input = l.input ∧ l.pos ≤ l1.pos ∧ l1.pos ≤ l.input.length
      ∧ ((st1 = .errorSt ∧ ∃ u, ts = [u] ∧ u.typ = TokenT.error)
         ∨ (st1 = .tagContent ∧ l1.pin = l1.pos
            ∧ (∀ v ∈ ts, v.typ ≠ TokenT.eofT ∧ v.typ ≠ TokenT.error)
            ∧ (l.pos < l1.pos ∨ l.pin < l.pos))) := by
  induction fuel with
  | zero =>
    intro l h1 h2
    exact absurd h1 (by omega)
  | succ fuel ih =>
    intro l h1 h2
    obtain ⟨o, l1, hn, hi1, hp1, hd1, hc⟩ := Lx.nextRune_spec l
    have bi1 : l1.input.length = l.input.length := by rw [hi1]
    simp only [lexIdentLoop]
    rw [hn]
    rcases hc with ⟨hq1, hq2, hq3, rfl⟩ | ⟨hq1, hq2, hq3, rfl⟩
    · dsimp only
      by_cases hc1 : isAlphaNumericGo (l.input.getD l.pos '\x00') = true
      · rw [if_pos hc1]
        obtain ⟨l2, st2, ts2, he2, hi2, hp2a, hp2b, hdisj⟩ := ih l1 (by omega) (by omega)
        refine ⟨l2, st2, ts2, he2, by rw [hi2, hi1], by omega, by omega, ?_⟩
        rcases hdisj with h | ⟨hst, hpin, hts, _⟩
        · exact .inl h
        · exact .inr ⟨hst, hpin, hts, .inl (by omega)⟩
      · rw [if_neg hc1]
        by_cases hc2 : l.input.getD l.pos '\x00' = '.' ∧ l1.input.getD l1.pin '\x00' = '.'
        · rw [if_pos hc2]
          obtain ⟨l2, st2, ts2, he2, hi2, hp2a, hp2b, hdisj⟩ := ih l1 (by omega) (by omega)
          refine ⟨l2, st2, ts2, he2, by rw [hi2, hi1], by omega, by omega, ?_⟩
          rcases hdisj with h | ⟨hst, hpin, hts, _⟩
          · exact .inl h
          · exact .inr ⟨hst, hpin, hts, .inl (by omega)⟩
        · rw [if_neg hc2]
          have hbpos : (l1.backup).pos = l.pos := by
            show l1.pos - l1.width = l.pos
            omega
          have hbpin : (l1.backup).pin = l.pin := by
            show l1.pin = l.pin
            exact hp1
          have hbin : (l1.backup).input = l.input := by
            show l1.input = l.input
            exact hi1
          rcases identEmit_spec l1.backup with
            ⟨u, lr, he, hut, hri, hrp, hrpin, hrd, hlt⟩ | ⟨u, lr, he, hut, hri, hrp, hrd⟩
          · rw [he]
            refine ⟨lr, .tagContent, [u], rfl, by rw [hri, hbin], by omega, by omega,
              .inr ⟨rfl, by omega, ?_, .inr (by omega)⟩⟩
            intro v hv
            simp at hv
            rw [hv]
            rcases hut with h | h | h <;> rw [h] <;> exact ⟨by decide, by decide⟩
          · rw [he]
            exact ⟨lr, .errorSt, [u], rfl, by rw [hri, hbin], by omega, by omega,
              .inl ⟨rfl, u, rfl, hut⟩⟩
    · dsimp only
      have hbpos : (l1.backup).pos = l.pos := by
        show l1.pos - l1.width = l.pos
        omega
      have hbpin : (l1.backup).pin = l.pin := by
        show l1.pin = l.pin
        exact hp1
      have hbin : (l1.backup).input = l.input := by
        show l1.input = l.input
        exact hi1
      rcases identEmit_spec l1.backup with
        ⟨u, lr, he, hut, hri, hrp, hrpin, hrd, hlt⟩ | ⟨u, lr, he, hut, hri, hrp, hrd⟩
      · rw [he]
        refine ⟨lr, .tagContent, [u], rfl, by rw [hri, hbin], by omega, by omega,
          .inr ⟨rfl, by omega, ?_, .inr (by omega)⟩⟩
        intro v hv
        simp at hv
        rw [hv]
        rcases hut with h | h | h <;> rw [h] <;> exact ⟨by decide, by decide⟩
      · rw [he]
        exact ⟨lr, .errorSt, [u], rfl, by rw [hri, hbin], by omega, by omega,
          .inl ⟨rfl, u, rfl, hut⟩⟩

theorem lexQuoteLoop_spec (fuel : Nat) : ∀ (l : Lx),
    l.pos ≤ l.input.length → l.input.length < fuel + l.pos →
    ∃ l1 st1 ts, lexQuoteLoop fuel l = (l1, st1, ts)
      ∧ l1.input = l.input ∧ l.pos ≤ l1.pos ∧ l1.pos ≤ l.input.length
      ∧ ((st1 = .errorSt ∧ ∃ u, ts = [u] ∧ u.typ = TokenT.error)
         ∨ (st1 = .tagContent ∧ l1.pin = l1.pos
            ∧ (∃ u, ts = [u] ∧ u.typ = TokenT.string)
            ∧ l.pos < l1.pos)) := by
  induction fuel with
  | zero =>
    intro l h1 h2
    exact absurd h1 (by omega)
  | succ fuel ih =>
    intro l h1 h2
    obtain ⟨o, l1, hn, hi1, hp1, hd1, hc⟩ := Lx.nextRune_spec l
    have bi1 : l1.input.length = l.input.length := by rw [hi1]
    simp only [lexQuoteLoop]
    rw [hn]
    rcases hc with ⟨hq1, hq2, hq3, rfl⟩ | ⟨hq1, hq2, hq3, rfl⟩
    · dsimp only
      by_cases hc1 : l.input.getD l.pos '\x00' = '\\'
      · rw [if_pos hc1]
        obtain ⟨o2, l2, hn2, hi2, hp2, hd2, hc2⟩ := Lx.nextRune_spec l1
        have bi2 : l2.input.length = l.input.length := by rw [hi2, hi1]
        rw [hn2]
        rcases hc2 with ⟨hr1, hr2, hr3, rfl⟩ | ⟨hr1, hr2, hr3, rfl⟩
        · dsimp only
          by_cases hc3 : l1.input.getD l1.pos '\x00' = '\n'
          · rw [if_pos hc3]
            obtain ⟨u, lr, he, hut, hri, hrp, hrd⟩ :=
              errorfStep_spec l2 "unterminated quoted string".toList
            rw [he]
            exact ⟨lr, .errorSt, [u], rfl, by rw [hri, hi2, hi1], by omega, by omega,
              .inl ⟨rfl, u, rfl, hut⟩⟩
          · rw [if_neg hc3]
            obtain ⟨l3, st3, ts3, he3, hi3, hp3a, hp3b, hdisj⟩ := ih l2 (by omega) (by omega)
            refine ⟨l3, st3, ts3, he3, by rw [hi3, hi2, hi1], by omega, by omega, ?_⟩
            rcases hdisj with h | ⟨hst, hpin, hts, _⟩
            · exact .inl h
            · exact .inr ⟨hst, hpin, hts, by omega⟩
        · dsimp only
          obtain ⟨u, lr, he, hut, hri, hrp, hrd⟩ :=
            errorfStep_spec l2 "unterminated quoted string".toList
          rw [he]
          exact ⟨lr, .errorSt, [u], rfl, by rw [hri, hi2, hi1], by omega, by omega,
            .inl ⟨rfl, u, rfl, hut⟩⟩
      · rw [if_neg hc1]
        by_cases hc2 : l.input.getD l.pos '\x00' = '"'
        · rw [if_pos hc2]
          obtain ⟨u, lr, he, hut, hri, hrp, hrpin, hrd⟩ := Lx.emitTok_spec l1 .string
          rw [he]
          dsimp only
          refine ⟨lr, .tagContent, [u], rfl, by rw [hri, hi1], by omega, by omega,
            .inr ⟨rfl, by omega, ⟨u, rfl, hut⟩, by omega⟩⟩
        · rw [if_neg hc2]
          by_cases hc3 : l.input.getD l.pos '\x00' = '\n'
          · rw [if_pos hc3]
            obtain ⟨u, lr, he, hut, hri, hrp, hrd⟩ :=
              errorfStep_spec l1 "unterminated quoted string".toList
            rw [he]
            exact ⟨lr, .errorSt, [u], rfl, by rw [hri, hi1], by omega, by omega,
              .inl ⟨rfl, u, rfl, hut⟩⟩
          · rw [if_neg hc3]
            obtain ⟨l3, st3, ts3, he3, hi3, hp3a, hp3b, hdisj⟩ := ih l1 (by omega) (by omega)
            refine ⟨l3, st3, ts3, he3, by rw [hi3, hi1], by omega, by omega, ?_⟩
            rcases hdisj with h | ⟨hst, hpin, hts, _⟩
            · exact .inl h
            · exact .inr ⟨hst, hpin, hts, by omega⟩
    · dsimp only
      obtain ⟨u, lr, he, hut, hri, hrp, hrd⟩ :=
        errorfStep_spec l1 "unterminated quoted string".toList
      rw [he]
      exact ⟨lr, .errorSt, [u], rfl, by rw [hri, hi1], by omega, by omega,
        .inl ⟨rfl, u, rfl, hut⟩⟩

theorem stepOut_error (l : Lx) (st : LState) (l0 : Lx) (msg : List Char)
    (hi : l0.input = l.input) (hp : l0.pos ≤ l.input.length) :
    StepOut l st (errorfStep l0 msg) := by
  obtain ⟨u, lr, he, hut, hri, hrp, hrd⟩ := errorfStep_spec l0 msg
  rw [he]
  refine StepOut.mk' l st lr .errorSt [u] (by rw [hri, hi]) (by omega) ?_
    (.inr (.inl rfl)) ?_ ?_ ?_
  · intro hx
    exact absurd hx (by decide)
  · intro hx
    exact absurd hx (by decide)
  · intro _
    exact ⟨[], u, rfl, hut, by simp⟩
  · intro _ hy
    exact absurd rfl hy

theorem stepOut_silent (l : Lx) (st st' : LState) (l1 : Lx)
    (hi : l1.input = l.input) (hp : l1.pos ≤ l.input.length)
    (hpin : st' = .tagContent → l1.pin = l1.pos)
    (hne : st' ≠ .eofSt) (hne2 : st' ≠ .errorSt)
    (hm : meas st' l1 < meas st l) :
    StepOut l st (l1, st', []) := by
  refine StepOut.mk' l st l1 st' [] hi hp hpin (.inr (.inr hm)) ?_ ?_ ?_
  · intro hx
    exact absurd hx hne
  · intro hx
    exact absurd hx hne2
  · intro _ _ v hv
    simp at hv

theorem stepOut_tok (l : Lx) (st st' : LState) (l1 : Lx) (u : LToken)
    (hi : l1.input = l.input) (hp : l1.pos ≤ l.input.length)
    (hpin : st' = .tagContent → l1.pin = l1.pos)
    (hne : st' ≠ .eofSt) (hne2 : st' ≠ .errorSt)
    (hm : meas st' l1 < meas st l)
    (hu : u.typ ≠ TokenT.eofT ∧ u.typ ≠ TokenT.error) :
    StepOut l st (l1, st', [u]) := by
  refine StepOut.mk' l st l1 st' [u] hi hp hpin (.inr (.inr hm)) ?_ ?_ ?_
  · intro hx
    exact absurd hx hne
  · intro hx
    exact absurd hx hne2
  · intro _ _ v hv
    simp at hv
    rw [hv]
    exact hu

theorem take_drop_one {s : List Char} {k : Nat} (h : k < s.length) :
    (s.take (k + 1)).drop k = [s.getD k '\x00'] := by
  induction s generalizing k with
  | nil => simp at h
  | cons a t ihs =>
    cases k with
    | zero => simp
    | succ k' =>
      simp only [List.take_succ_cons, List.drop_succ_cons, List.getD_cons_succ]
      exact ihs (by simpa using h)

theorem take_drop_two {s : List Char} {k : Nat} (h : k + 1 < s.length) :
    (s.take (k + 2)).drop k = [s.getD k '\x00', s.getD (k + 1) '\x00'] := by
  induction s generalizing k with
  | nil => simp at h
  | cons a t ihs =>
    cases k with
    | zero =>
      simp only [List.take_succ_cons, List.drop_succ_cons, List.drop_zero,
        List.getD_cons_zero, List.getD_cons_succ]
      have h0 : 0 < t.length := by simpa using h
      have := take_drop_one (s := t) (k := 0) h0
      simpa using this
    | succ k' =>
      simp only [List.take_succ_cons, List.drop_succ_cons, List.getD_cons_succ]
      exact ihs (by simpa using h)

theorem symbolType_paren_ne :
    ∀ c, c ∈ ['(', ')', '?'] →
      symbolType [c] ≠ TokenT.eofT ∧ symbolType [c] ≠ TokenT.error := by
  decide

theorem symbolType_op_ne :
    ∀ c, c ∈ ['*', '%', '+', '-', '=', ':', '!', '<', '>', '/'] →
      (symbolType [c] ≠ TokenT.eofT ∧ symbolType [c] ≠ TokenT.error)
      ∧ (symbolType [c, '='] ≠ TokenT.eofT ∧ symbolType [c, '='] ≠ TokenT.error) := by
  decide

theorem symbolType_amp_ne :
    ∀ c, c ∈ ['&', '|'] →
      symbolType [c, c] ≠ TokenT.eofT ∧ symbolType [c, c] ≠ TokenT.error := by
  decide

theorem stepTagStart_out (l : Lx) (h1 : l.pos ≤ l.input.length) :
    StepOut l .tagStart (stepTagStart l) := by
  obtain ⟨u, lr, he, hut, hri, hrp, hrpin, hrd⟩ :=
    Lx.emitValueTok_spec l .leftBrace ((l.pos : Int) - 1) []
  rw [stepTagStart, he]
  have bi : lr.input.length = l.input.length := by rw [hri]
  refine stepOut_tok l .tagStart .tagContent lr u hri (by omega)
    (fun _ => by omega) (by decide) (by decide) ?_ ?_
  · simp only [meas, wgt]
    omega
  · rw [hut]
    exact ⟨by decide, by decide⟩

theorem stepTagEnd_out (l : Lx) (h1 : l.pos ≤ l.input.length) :
    StepOut l .tagEnd (stepTagEnd l) := by
  obtain ⟨u, lr, he, hut, hri, hrp, hrpin, hrd⟩ :=
    Lx.emitValueTok_spec l .rightBrace ((l.pos : Int) - 1) []
  rw [stepTagEnd, he]
  have bi : lr.input.length = l.input.length := by rw [hri]
  refine stepOut_tok l .tagEnd .file lr u hri (by omega)
    (fun hx => absurd hx (by decide)) (by decide) (by decide) ?_ ?_
  · simp only [meas, wgt]
    omega
  · rw [hut]
    exact ⟨by decide, by decide⟩

theorem stepTagComment_out (l : Lx) (h1 : l.pos ≤ l.input.length) :
    StepOut l .tagComment (stepTagComment l) := by
  rw [stepTagComment]
  rcases hidx : indexOfSubFrom l.input ['*', '/', '\x7d'] l.pos with _ | i
  · exact stepOut_error l .tagComment l _ rfl h1
  · have hb := indexOfSubAux_bounds (by decide) hidx
    rw [List.length_drop] at hb
    have hi3 : (Lx.skip { l with pos := i + 3 }).pos = i + 3 := rfl
    have hii : (Lx.skip { l with pos := i + 3 }).input = l.input := rfl
    refine stepOut_silent l .tagComment .file _ hii (by simp [List.length] at hb; omega)
      (fun hx => absurd hx (by decide)) (by decide) (by decide) ?_
    simp only [meas, wgt, hi3, hii]
    simp only [List.length] at hb
    omega

theorem stepIndex_out (l : Lx) (h1 : l.pos ≤ l.input.length) :
    StepOut l .indexSt (errorfStep l "indexes are not supported yet".toList) :=
  stepOut_error l .indexSt l _ rfl h1

theorem stepNumber_out (l : Lx) (h1 : l.pos ≤ l.input.length) :
    StepOut l .number (stepNumber l) := by
  rcases hsn : scanNumber l with ⟨ty, ok, l1⟩
  have hs := scanNumber_spec l ty ok l1 h1 hsn
  obtain ⟨hni, hnp, hnd, hm1, hm2, hstrict, hty⟩ := hs
  have bi : l1.input.length = l.input.length := by rw [hni]
  rw [stepNumber, hsn]
  cases ok
  · try dsimp only
    exact stepOut_error l .number l1 _ hni (by omega)
  · try dsimp only
    obtain ⟨u, lr, he, hut, hri, hrp, hrpin, hrd⟩ := Lx.emitTok_spec l1 ty
    rw [he]
    have hstr : l.pos < l1.pos := hstrict rfl
    refine stepOut_tok l .number .tagContent lr u (by rw [hri, hni])
      (by omega) (fun _ => by omega) (by decide) (by decide) ?_ ?_
    · have bri : lr.input.length = l.input.length := by rw [hri, hni]
      simp only [meas, wgt]
      omega
    · rw [hut]
      rcases hty with h | h <;> rw [h] <;> exact ⟨by decide, by decide⟩

theorem stepComment_out (l : Lx) (h1 : l.pos ≤ l.input.length) :
    StepOut l .comment (stepComment l) := by
  obtain ⟨o, l1, hn, hi1, hp1, hd1, hc⟩ := Lx.nextRune_spec l
  have bi1 : l1.input.length = l.input.length := by rw [hi1]
  rw [stepComment, hn]
  rcases hc with ⟨hq1, hq2, hq3, rfl⟩ | ⟨hq1, hq2, hq3, rfl⟩
  · dsimp only
    by_cases hc1 : l.input.getD l.pos '\x00' = '/'
    · rw [if_pos hc1]
      try dsimp only
      split
      ·
        obtain ⟨ts, l2, hemit, hei, hep, hed, htyp⟩ := emitTextTok_spec l1 2
        have bi2 : l2.input.length = l.input.length := by rw [hei, hi1]
        rw [hemit]
        obtain ⟨cs, l3, hunt, hui, hup, hud, hum1, hum2⟩ := Lx.acceptUntilRune_spec l2 '\n'
        have bi3 : l3.input.length = l.input.length := by rw [hui, hei, hi1]
        rw [hunt]
        obtain ⟨u, lr, he, hut, hri, hrp, hrpin, hrd⟩ := Lx.emitTok_spec l3 .comment
        rw [he]
        try dsimp only
        have bir : lr.input.length = l.input.length := by rw [hri, hui, hei, hi1]
        refine StepOut.mk' l .comment lr .file (ts ++ [u])
          (by rw [hri, hui, hei, hi1]) (by omega)
          (fun hx => absurd hx (by decide)) (.inr (.inr ?_)) ?_ ?_ ?_
        · simp only [meas, wgt]
          omega
        · intro hx
          exact absurd hx (by decide)
        · intro hx
          exact absurd hx (by decide)
        · intro _ _ v hv
          simp at hv
          rcases hv with hv | hv
          · rw [htyp v hv]
            exact ⟨by decide, by decide⟩
          · rw [hv, hut]
            exact ⟨by decide, by decide⟩
      · split
        · split
          ·
            obtain ⟨ts, l2, hemit, hei, hep, hed, htyp⟩ := emitTextTok_spec l1 2
            have bi2 : l2.input.length = l.input.length := by rw [hei, hi1]
            rw [hemit]
            obtain ⟨cs, l3, hunt, hui, hup, hud, hum1, hum2⟩ := Lx.acceptUntilRune_spec l2 '\n'
            have bi3 : l3.input.length = l.input.length := by rw [hui, hei, hi1]
            rw [hunt]
            obtain ⟨u, lr, he, hut, hri, hrp, hrpin, hrd⟩ := Lx.emitTok_spec l3 .comment
            rw [he]
            try dsimp only
            have bir : lr.input.length = l.input.length := by rw [hri, hui, hei, hi1]
            refine StepOut.mk' l .comment lr .file (ts ++ [u])
              (by rw [hri, hui, hei, hi1]) (by omega)
              (fun hx => absurd hx (by decide)) (.inr (.inr ?_)) ?_ ?_ ?_
            · simp only [meas, wgt]
              omega
            · intro hx
              exact absurd hx (by decide)
            · intro hx
              exact absurd hx (by decide)
            · intro _ _ v hv
              simp at hv
              rcases hv with hv | hv
              · rw [htyp v hv]
                exact ⟨by decide, by decide⟩
              · rw [hv, hut]
                exact ⟨by decide, by decide⟩
          ·
            refine stepOut_silent l .comment .file l1 hi1 (by omega)
              (fun hx => absurd hx (by decide)) (by decide) (by decide) ?_
            simp only [meas, wgt]
            omega
        ·
          refine stepOut_silent l .comment .file l1 hi1 (by omega)
            (fun hx => absurd hx (by decide)) (by decide) (by decide) ?_
          simp only [meas, wgt]
          omega
    · rw [if_neg hc1]
      by_cases hc2 : l.input.getD l.pos '\x00' = '*'
      · rw [if_pos hc2]
        obtain ⟨ts, l2, hemit, hei, hep, hed, htyp⟩ := emitTextTok_spec l1 2
        have bi2 : l2.input.length = l.input.length := by rw [hei, hi1]
        rw [hemit]
        obtain ⟨cs, l3, hunt, hui, hup, hud, hum1, hum2⟩ :=
          Lx.acceptUntilPrefixOf_spec l2 ['*', '/'] (by decide)
        have bi3 : l3.input.length = l.input.length := by rw [hui, hei, hi1]
        rw [hunt]
        obtain ⟨u, lr, he, hut, hri, hrp, hrpin, hrd⟩ := Lx.emitTok_spec l3 .comment
        rw [he]
        dsimp only
        have bir : lr.input.length = l.input.length := by rw [hri, hui, hei, hi1]
        refine StepOut.mk' l .comment lr .file (ts ++ [u])
          (by rw [hri, hui, hei, hi1]) (by omega)
          (fun hx => absurd hx (by decide)) (.inr (.inr ?_)) ?_ ?_ ?_
        · simp only [meas, wgt]
          omega
        · intro hx
          exact absurd hx (by decide)
        · intro hx
          exact absurd hx (by decide)
        · intro _ _ v hv
          simp at hv
          rcases hv with hv | hv
          · rw [htyp v hv]
            exact ⟨by decide, by decide⟩
          · rw [hv, hut]
            exact ⟨by decide, by decide⟩
      · rw [if_neg hc2]
        refine stepOut_silent l .comment .file l1 hi1 (by omega)
          (fun hx => absurd hx (by decide)) (by decide) (by decide) ?_
        simp only [meas, wgt]
        omega
  · dsimp only
    refine stepOut_silent l .comment .file l1 hi1 (by omega)
      (fun hx => absurd hx (by decide)) (by decide) (by decide) ?_
    simp only [meas, wgt]
    omega

theorem stepTagContent_out (l : Lx) (h1 : l.pos ≤ l.input.length)
    (h2 : l.pin = l.pos) :
    StepOut l .tagContent (stepTagContent l) := by
  obtain ⟨o, l1, hn, hi1, hp1, hd1, hc⟩ := Lx.nextRune_spec l
  have bi1 : l1.input.length = l.input.length := by rw [hi1]
  rw [stepTagContent, hn]
  rcases hc with ⟨hq1, hq2, hq3, rfl⟩ | ⟨hq1, hq2, hq3, rfl⟩
  · -- a rune is available
    dsimp only
    by_cases hb1 : l.input.getD l.pos '\x00' = '\x7d'
    · rw [if_pos hb1]
      refine stepOut_silent l .tagContent .tagEnd l1 hi1 (by omega)
        (fun hx => absurd hx (by decide)) (by decide) (by decide) ?_
      simp only [meas, wgt]
      omega
    · rw [if_neg hb1]
      by_cases hb2 : l.input.getD l.pos '\x00' = '['
      · rw [if_pos hb2]
        refine stepOut_silent l .tagContent .indexSt l1 hi1 (by omega)
          (fun hx => absurd hx (by decide)) (by decide) (by decide) ?_
        simp only [meas, wgt]
        omega
      · rw [if_neg hb2]
        by_cases hb3 : l.input.getD l.pos '\x00' = '"'
        · rw [if_pos hb3]
          refine stepOut_silent l .tagContent .quote l1 hi1 (by omega)
            (fun hx => absurd hx (by decide)) (by decide) (by decide) ?_
          simp only [meas, wgt]
          omega
        · rw [if_neg hb3]
          by_cases hb4 : l.input.getD l.pos '\x00' = '.'
          · rw [if_pos hb4]
            refine stepOut_silent l .tagContent .identifier l1 hi1 (by omega)
              (fun hx => absurd hx (by decide)) (by decide) (by decide) ?_
            have hwb : wgt .identifier l1 ≤ 3 := by
              simp only [wgt]
              split <;> omega
            have hwt : wgt LState.tagContent l = 2 := rfl
            simp only [meas]
            omega
          · rw [if_neg hb4]
            by_cases hb5 : l.input.getD l.pos '\x00' ∈ sDecDigits
            · rw [if_pos hb5]
              have hbk1 : (l1.backup).pos = l.pos := by
                show l1.pos - l1.width = l.pos
                omega
              have hbk2 : (l1.backup).input = l.input := hi1
              refine stepOut_silent l .tagContent .number l1.backup hbk2 (by omega)
                (fun hx => absurd hx (by decide)) (by decide) (by decide) ?_
              have bib : (l1.backup).input.length = l.input.length := by rw [hbk2]
              simp only [meas, wgt]
              omega
            · rw [if_neg hb5]
              by_cases hb6 : l.input.getD l.pos '\x00' = ' '
                  ∨ l.input.getD l.pos '\x00' = '\t'
                  ∨ l.input.getD l.pos '\x00' = '\r'
              · rw [if_pos hb6]
                obtain ⟨cs, l2, hm, hmi, hmp, hmd, hmpos, hmb⟩ :=
                  Lx.acceptMany_spec l1 [' ', '\t', '\r']
                have bi2 : l2.input.length = l.input.length := by rw [hmi, hi1]
                rw [hm]
                dsimp only
                have hsk1 : (l2.skip).pin = (l2.skip).pos := rfl
                have hsk2 : (l2.skip).input = l.input := by
                  show l2.input = l.input
                  rw [hmi, hi1]
                have hsk3 : (l2.skip).pos = l2.pos := rfl
                refine stepOut_silent l .tagContent .tagContent l2.skip hsk2 (by omega)
                  (fun _ => hsk1) (by decide) (by decide) ?_
                have bis : (l2.skip).input.length = l.input.length := by rw [hsk2]
                simp only [meas, wgt]
                omega
              · rw [if_neg hb6]
                by_cases hb7 : l.input.getD l.pos '\x00' = '('
                    ∨ l.input.getD l.pos '\x00' = ')'
                    ∨ l.input.getD l.pos '\x00' = '?'
                · rw [if_pos hb7]
                  have hspan : (l1.input.take l1.pos).drop l1.pin
                      = [l.input.getD l.pos '\x00'] := by
                    rw [hi1, hq1, hp1, h2]
                    exact take_drop_one hq2
                  obtain ⟨u, lr, he, hut, hri, hrp, hrpin, hrd⟩ :=
                    Lx.emitValueTok_spec l1
                      (symbolType ((l1.input.take l1.pos).drop l1.pin)) (l1.pin : Int) []
                  rw [he]
                  have bir : lr.input.length = l.input.length := by rw [hri, hi1]
                  refine stepOut_tok l .tagContent .tagContent lr u (by rw [hri, hi1])
                    (by omega) (fun _ => by omega) (by decide) (by decide) ?_ ?_
                  · simp only [meas, wgt]
                    omega
                  · rw [hut, hspan]
                    exact symbolType_paren_ne _ (by rcases hb7 with h | h | h <;> rw [h] <;> decide)
                · rw [if_neg hb7]
                  by_cases hb8 : l.input.getD l.pos '\x00' = '/'
                  · rw [if_pos hb8]
                    obtain ⟨ba, l2, hacc, hci, hcp, hcd, hcc⟩ := Lx.accept_spec l1 '*'
                    have bi2 : l2.input.length = l.input.length := by rw [hci, hi1]
                    rw [hacc]
                    rcases hcc with ⟨rfl, hr1, hr2, hr3⟩ | ⟨rfl, hr1⟩
                    · dsimp only
                      refine stepOut_silent l .tagContent .tagComment l2 (by rw [hci, hi1])
                        (by omega) (fun hx => absurd hx (by decide)) (by decide) (by decide) ?_
                      simp only [meas, wgt]
                      omega
                    · dsimp only
                      obtain ⟨bb, l3, hacc2, hdi, hdp, hdd, hdc⟩ := Lx.accept_spec l2 '='
                      have bi3 : l3.input.length = l.input.length := by rw [hdi, hci, hi1]
                      rw [hacc2]
                      dsimp only
                      obtain ⟨u, lr, he, hut, hri, hrp, hrpin, hrd⟩ :=
                        Lx.emitValueTok_spec l3
                          (symbolType ((l3.input.take l3.pos).drop l3.pin)) (l3.pin : Int) []
                      rw [he]
                      have bir : lr.input.length = l.input.length := by rw [hri, hdi, hci, hi1]
                      have hpin3 : l3.pin = l.pos := by rw [hdp, hcp, hp1, h2]
                      refine stepOut_tok l .tagContent .tagContent lr u
                        (by rw [hri, hdi, hci, hi1]) (by omega) (fun _ => by omega)
                        (by decide) (by decide) ?_ ?_
                      · simp only [meas, wgt]
                        omega
                      · rcases hdc with ⟨rfl, hs1, hs2, hs3⟩ | ⟨rfl, hs1⟩
                        · have hspan : (l3.input.take l3.pos).drop l3.pin
                              = [l.input.getD l.pos '\x00', '='] := by
                            have hl2 : l2.input.getD l2.pos '\x00' = '=' := hs3
                            rw [hdi, hci, hi1] at *
                            rw [hpin3, hs1, hr1, hq1]
                            have h2lt : l.pos + 1 < l.input.length := by
                              rw [hci, hi1] at hs2
                              omega
                            have := take_drop_two (s := l.input) (k := l.pos) h2lt
                            rw [this]
                            have : l.input.getD (l.pos + 1) '\x00' = '=' := by
                              rw [hci, hi1] at hl2
                              rw [← hl2, hr1, hq1]
                            rw [this, hb8]
                          rw [hut, hspan, hb8]
                          exact (symbolType_op_ne '/' (by decide)).2
                        · have hspan : (l3.input.take l3.pos).drop l3.pin
                              = [l.input.getD l.pos '\x00'] := by
                            rw [hdi, hci, hi1, hpin3, hs1, hr1, hq1]
                            exact take_drop_one hq2
                          rw [hut, hspan, hb8]
                          exact (symbolType_op_ne '/' (by decide)).1
                  · rw [if_neg hb8]
                    by_cases hb9 : l.input.getD l.pos '\x00'
                        ∈ ['*', '%', '+', '-', '=', ':', '!', '<', '>']
                    · rw [if_pos hb9]
                      obtain ⟨bb, l3, hacc2, hdi, hdp, hdd, hdc⟩ := Lx.accept_spec l1 '='
                      have bi3 : l3.input.length = l.input.length := by rw [hdi, hi1]
                      rw [hacc2]
                      dsimp only
                      obtain ⟨u, lr, he, hut, hri, hrp, hrpin, hrd⟩ :=
                        Lx.emitValueTok_spec l3
                          (symbolType ((l3.input.take l3.pos).drop l3.pin)) (l3.pin : Int) []
                      rw [he]
                      have bir : lr.input.length = l.input.length := by rw [hri, hdi, hi1]
                      have hpin3 : l3.pin = l.pos := by rw [hdp, hp1, h2]
                      have hb9' : l.input.getD l.pos '\x00' = '*'
                          ∨ l.input.getD l.pos '\x00' = '%'
                          ∨ l.input.getD l.pos '\x00' = '+'
                          ∨ l.input.getD l.pos '\x00' = '-'
                          ∨ l.input.getD l.pos '\x00' = '='
                          ∨ l.input.getD l.pos '\x00' = ':'
                          ∨ l.input.getD l.pos '\x00' = '!'
                          ∨ l.input.getD l.pos '\x00' = '<'
                          ∨ l.input.getD l.pos '\x00' = '>' := by simpa using hb9
                      have hmem : l.input.getD l.pos '\x00'
                          ∈ ['*', '%', '+', '-', '=', ':', '!', '<', '>', '/'] := by
                        rcases hb9' with h | h | h | h | h | h | h | h | h <;> rw [h] <;> decide
                      refine stepOut_tok l .tagContent .tagContent lr u
                        (by rw [hri, hdi, hi1]) (by omega) (fun _ => by omega)
                        (by decide) (by decide) ?_ ?_
                      · simp only [meas, wgt]
                        omega
                      · rcases hdc with ⟨rfl, hs1, hs2, hs3⟩ | ⟨rfl, hs1⟩
                        · have hspan : (l3.input.take l3.pos).drop l3.pin
                              = [l.input.getD l.pos '\x00', '='] := by
                            have hl2 : l1.input.getD l1.pos '\x00' = '=' := hs3
                            rw [hdi, hi1, hpin3, hs1, hq1]
                            have h2lt : l.pos + 1 < l.input.length := by
                              rw [hi1] at hs2
                              omega
                            have := take_drop_two (s := l.input) (k := l.pos) h2lt
                            rw [this]
                            have : l.input.getD (l.pos + 1) '\x00' = '=' := by
                              rw [hi1] at hl2
                              rw [← hl2, hq1]
                            rw [this]
                          rw [hut, hspan]
                          exact ((symbolType_op_ne _ hmem).2)
                        · have hspan : (l3.input.take l3.pos).drop l3.pin
                              = [l.input.getD l.pos '\x00'] := by
                            rw [hdi, hi1, hpin3, hs1, hq1]
                            exact take_drop_one hq2
                          rw [hut, hspan]
                          exact ((symbolType_op_ne _ hmem).1)
                    · rw [if_neg hb9]
                      by_cases hb10 : l.input.getD l.pos '\x00' = '&'
                          ∨ l.input.getD l.pos '\x00' = '|'
                      · rw [if_pos hb10]
                        obtain ⟨bb, l3, hacc2, hdi, hdp, hdd, hdc⟩ :=
                          Lx.accept_spec l1 (l.input.getD l.pos '\x00')
                        have bi3 : l3.input.length = l.input.length := by rw [hdi, hi1]
                        rw [hacc2]
                        rcases hdc with ⟨rfl, hs1, hs2, hs3⟩ | ⟨rfl, hs1⟩
                        · dsimp only
                          obtain ⟨u, lr, he, hut, hri, hrp, hrpin, hrd⟩ :=
                            Lx.emitValueTok_spec l3
                              (symbolType ((l3.input.take l3.pos).drop l3.pin)) (l3.pin : Int) []
                          rw [he]
                          have bir : lr.input.length = l.input.length := by rw [hri, hdi, hi1]
                          have hpin3 : l3.pin = l.pos := by rw [hdp, hp1, h2]
                          refine stepOut_tok l .tagContent .tagContent lr u
                            (by rw [hri, hdi, hi1]) (by omega) (fun _ => by omega)
                            (by decide) (by decide) ?_ ?_
                          · simp only [meas, wgt]
                            omega
                          · have hspan : (l3.input.take l3.pos).drop l3.pin
                                = [l.input.getD l.pos '\x00', l.input.getD l.pos '\x00'] := by
                              have hl2 : l1.input.getD l1.pos '\x00'
                                  = l.input.getD l.pos '\x00' := hs3
                              rw [hdi, hi1, hpin3, hs1, hq1]
                              have h2lt : l.pos + 1 < l.input.length := by
                                rw [hi1] at hs2
                                omega
                              have := take_drop_two (s := l.input) (k := l.pos) h2lt
                              rw [this]
                              have : l.input.getD (l.pos + 1) '\x00'
                                  = l.input.getD l.pos '\x00' := by
                                rw [hi1] at hl2
                                rw [← hl2, hq1]
                              rw [this]
                            rw [hut, hspan]
                            exact symbolType_amp_ne _
                              (by rcases hb10 with h | h <;> rw [h] <;> decide)
                        · dsimp only
                          exact stepOut_error l .tagContent l3 _ (by rw [hdi, hi1])
                            (by omega)
                      · rw [if_neg hb10]
                        by_cases hb11 : l.input.getD l.pos '\x00' = '\n'
                        · rw [if_pos hb11]
                          exact stepOut_error l .tagContent l1 _ hi1 (by omega)
                        · rw [if_neg hb11]
                          by_cases hb12 : isAlphaNumericGo (l.input.getD l.pos '\x00') = true
                          · rw [if_pos hb12]
                            have hbk1 : (l1.backup).pos = l.pos := by
                              show l1.pos - l1.width = l.pos
                              omega
                            have hbk2 : (l1.backup).input = l.input := hi1
                            have hbk3 : (l1.backup).pin = l.pin := hp1
                            refine stepOut_silent l .tagContent .identifier l1.backup hbk2
                              (by omega) (fun hx => absurd hx (by decide))
                              (by decide) (by decide) ?_
                            have bib : (l1.backup).input.length = l.input.length := by rw [hbk2]
                            have hwz : wgt .identifier l1.backup = 0 := by
                              simp only [wgt]
                              rw [if_pos (by omega)]
                            have hwt : wgt LState.tagContent l = 2 := rfl
                            simp only [meas, hwz, hwt]
                            omega
                          · rw [if_neg hb12]
                            exact stepOut_error l .tagContent l1 _ hi1 (by omega)
  · -- end of input: unclosed action
    dsimp only
    exact stepOut_error l .tagContent l1 _ hi1 (by omega)

theorem stepLex_out (st : LState) (l : Lx)
    (hne : st ≠ .eofSt) (hne2 : st ≠ .errorSt)
    (h1 : l.pos ≤ l.input.length)
    (h2 : st = .tagContent → l.pin = l.pos) :
    StepOut l st (stepLex st l) := by
  cases st with
  | file =>
    obtain ⟨l1, st1, ts, he, hi, hp, hdisj⟩ :=
      lexFileLoop_spec (l.input.length - l.pos + 1) l h1 (by omega)
    simp only [stepLex]
    rw [he]
    rcases hdisj with ⟨hst, pre, u, hts, hut, hpre⟩ | ⟨hst, hts, hme⟩
    · subst hst
      refine StepOut.mk' l .file l1 .eofSt ts hi hp (fun hx => absurd hx (by decide))
        (.inl rfl) (fun _ => ⟨pre, u, hts, hut, hpre⟩)
        (fun hx => absurd hx (by decide)) (fun hx _ => absurd rfl hx)
    · rcases hst with hst | hst <;> subst hst
      · exact StepOut.mk' l .file l1 .comment ts hi hp (fun hx => absurd hx (by decide))
          (.inr (.inr hme)) (fun hx => absurd hx (by decide))
          (fun hx => absurd hx (by decide)) (fun _ _ => hts)
      · exact StepOut.mk' l .file l1 .tagStart ts hi hp (fun hx => absurd hx (by decide))
          (.inr (.inr hme)) (fun hx => absurd hx (by decide))
          (fun hx => absurd hx (by decide)) (fun _ _ => hts)
  | eofSt => exact absurd rfl hne
  | errorSt => exact absurd rfl hne2
  | comment =>
    simp only [stepLex]
    exact stepComment_out l h1
  | tagStart =>
    simp only [stepLex]
    exact stepTagStart_out l h1
  | tagEnd =>
    simp only [stepLex]
    exact stepTagEnd_out l h1
  | tagComment =>
    simp only [stepLex]
    exact stepTagComment_out l h1
  | tagContent =>
    simp only [stepLex]
    exact stepTagContent_out l h1 (h2 rfl)
  | identifier =>
    obtain ⟨l1, st1, ts, he, hi, hpa, hpb, hdisj⟩ :=
      lexIdentLoop_spec (l.input.length - l.pos + 2) l h1 (by omega)
    simp only [stepLex]
    rw [he]
    have bi : l1.input.length = l.input.length := by rw [hi]
    rcases hdisj with ⟨hst, u, hts, hut⟩ | ⟨hst, hpin, hts, hzero⟩
    · subst hst
      subst hts
      exact StepOut.mk' l .identifier l1 .errorSt [u] hi hpb
        (fun hx => absurd hx (by decide)) (.inr (.inl rfl))
        (fun hx => absurd hx (by decide))
        (fun _ => ⟨[], u, rfl, hut, by simp⟩) (fun _ hy => absurd rfl hy)
    · subst hst
      refine StepOut.mk' l .identifier l1 .tagContent ts hi hpb (fun _ => hpin)
        (.inr (.inr ?_)) (fun hx => absurd hx (by decide))
        (fun hx => absurd hx (by decide)) (fun _ _ => hts)
      have hwt : wgt LState.tagContent l1 = 2 := rfl
      rcases hzero with hlt | hpinlt
      · simp only [meas, hwt]
        omega
      · have hwz : wgt .identifier l = 3 := by
          simp only [wgt]
          rw [if_neg (by omega)]
        simp only [meas, hwt, hwz]
        omega
  | quote =>
    obtain ⟨l1, st1, ts, he, hi, hpa, hpb, hdisj⟩ :=
      lexQuoteLoop_spec (l.input.length - l.pos + 2) l h1 (by omega)
    simp only [stepLex]
    rw [he]
    have bi : l1.input.length = l.input.length := by rw [hi]
    rcases hdisj with ⟨hst, u, hts, hut⟩ | ⟨hst, hpin, hts, hlt⟩
    · subst hst
      subst hts
      exact StepOut.mk' l .quote l1 .errorSt [u] hi hpb
        (fun hx => absurd hx (by decide)) (.inr (.inl rfl))
        (fun hx => absurd hx (by decide))
        (fun _ => ⟨[], u, rfl, hut, by simp⟩) (fun _ hy => absurd rfl hy)
    · subst hst
      obtain ⟨u, rfl, hut⟩ := hts
      refine StepOut.mk' l .quote l1 .tagContent [u] hi hpb (fun _ => hpin)
        (.inr (.inr ?_)) (fun hx => absurd hx (by decide))
        (fun hx => absurd hx (by decide)) ?_
      · have hwt : wgt LState.tagContent l1 = 2 := rfl
        have hwq : wgt LState.quote l = 0 := rfl
        simp only [meas, hwt, hwq]
        omega
      · intro _ _ v hv
        simp at hv
        rw [hv, hut]
        exact ⟨by decide, by decide⟩
  | number =>
    simp only [stepLex]
    exact stepNumber_out l h1
  | indexSt =>
    simp only [stepLex]
    exact stepIndex_out l h1

theorem stepLex_eofSt (l : Lx) :
    (stepLex .eofSt l).2.1 = .eofSt
    ∧ ((stepLex .eofSt l).2.2).map LToken.typ = [TokenT.eofT]
    ∧ (stepLex .eofSt l).1.input = l.input
    ∧ (stepLex .eofSt l).1.pos = l.pos :=
  ⟨rfl, rfl, rfl, rfl⟩

theorem stepLex_errorSt (l : Lx) :
    (stepLex .errorSt l).2.1 = .errorSt
    ∧ ((stepLex .errorSt l).2.2).map LToken.typ = [TokenT.error]
    ∧ (stepLex .errorSt l).1.input = l.input
    ∧ (stepLex .errorSt l).1.pos = l.pos :=
  ⟨rfl, rfl, rfl, rfl⟩

theorem lexTokens_terminal : ∀ (m : Nat) (l : Lx) (st : LState) (term : TokenT),
    ((st = .eofSt ∧ term = TokenT.eofT) ∨ (st = .errorSt ∧ term = TokenT.error)) →
    (lexTokens m (l, st)).map LToken.typ = List.replicate m term := by
  intro m
  induction m with
  | zero =>
    intro l st term _
    rfl
  | succ m ih =>
    intro l st term h
    rcases h with ⟨rfl, rfl⟩ | ⟨rfl, rfl⟩
    · have h1 := stepLex_eofSt l
      rcases hres : stepLex .eofSt l with ⟨l1, st1, ts⟩
      rw [hres] at h1
      dsimp only at h1
      simp only [lexTokens]
      rw [hres]
      dsimp only
      rw [List.map_append, h1.2.1, h1.1,
        ih l1 .eofSt TokenT.eofT (.inl ⟨rfl, rfl⟩)]
      rfl
    · have h1 := stepLex_errorSt l
      rcases hres : stepLex .errorSt l with ⟨l1, st1, ts⟩
      rw [hres] at h1
      dsimp only at h1
      simp only [lexTokens]
      rw [hres]
      dsimp only
      rw [List.map_append, h1.2.1, h1.1,
        ih l1 .errorSt TokenT.error (.inr ⟨rfl, rfl⟩)]
      rfl

theorem lexReach (k : Nat) : ∀ (l : Lx) (st : LState),
    st ≠ .eofSt → st ≠ .errorSt → l.pos ≤ l.input.length →
    (st = .tagContent → l.pin = l.pos) → meas st l ≤ k →
    ∃ (N : Nat) (pre : List TokenT) (term : TokenT),
      (term = TokenT.eofT ∨ term = TokenT.error)
      ∧ (∀ u ∈ pre, u ≠ TokenT.eofT ∧ u ≠ TokenT.error)
      ∧ ∀ m : Nat, (lexTokens (N + m) (l, st)).map LToken.typ
          = pre ++ term :: List.replicate m term := by
  induction k using Nat.strong_induction_on with
  | _ k ih =>
    intro l st hne hne2 h1 h2 hk
    have hstep := stepLex_out st l hne hne2 h1 h2
    rcases hres : stepLex st l with ⟨l1, st1, ts⟩
    rw [hres] at hstep
    obtain ⟨si, sp, spin, sdisj, seof, serr, spure⟩ := hstep
    dsimp only at si sp spin sdisj seof serr spure
    by_cases hT1 : st1 = .eofSt
    · obtain ⟨pre, u, hts, hut, hpre⟩ := seof hT1
      refine ⟨1, pre.map LToken.typ, TokenT.eofT, .inl rfl, ?_, ?_⟩
      · intro v hv
        simp only [List.mem_map] at hv
        obtain ⟨w, hw, rfl⟩ := hv
        exact hpre w hw
      · intro m
        have he1 : 1 + m = m + 1 := by omega
        rw [he1]
        simp only [lexTokens]
        rw [hres]
        dsimp only
        rw [List.map_append, hts, List.map_append,
          lexTokens_terminal m l1 st1 TokenT.eofT (.inl ⟨hT1, rfl⟩)]
        simp [hut]
    · by_cases hT2 : st1 = .errorSt
      · obtain ⟨pre, u, hts, hut, hpre⟩ := serr hT2
        refine ⟨1, pre.map LToken.typ, TokenT.error, .inr rfl, ?_, ?_⟩
        · intro v hv
          simp only [List.mem_map] at hv
          obtain ⟨w, hw, rfl⟩ := hv
          exact hpre w hw
        · intro m
          have he1 : 1 + m = m + 1 := by omega
          rw [he1]
          simp only [lexTokens]
          rw [hres]
          dsimp only
          rw [List.map_append, hts, List.map_append,
            lexTokens_terminal m l1 st1 TokenT.error (.inr ⟨hT2, rfl⟩)]
          simp [hut]
      · rcases sdisj with h | h | hme
        · exact absurd h hT1
        · exact absurd h hT2
        · have bi : l1.input.length = l.input.length := by rw [si]
          obtain ⟨N, pre, term, hterm, hpre, hstream⟩ :=
            ih (meas st1 l1) (by omega) l1 st1 hT1 hT2 (by omega) spin (le_refl _)
          refine ⟨N + 1, ts.map LToken.typ ++ pre, term, hterm, ?_, ?_⟩
          · intro v hv
            rcases List.mem_append.mp hv with hv | hv
            · simp only [List.mem_map] at hv
              obtain ⟨w, hw, rfl⟩ := hv
              exact spure hT1 hT2 w hw
            · exact hpre v hv
          · intro m
            have he1 : N + 1 + m = (N + m) + 1 := by omega
            rw [he1]
            simp only [lexTokens]
            rw [hres]
            dsimp only
            rw [List.map_append, hstream m, List.append_assoc]

/-- The lexer together with its token queue, as `next()` sees it; the
queue is modelled by the list of buffered tokens in FIFO order (the
queue is proved to be a faithful FIFO separately). -/
structure LexerSt where
  lx : Lx
  state : LState
  buf : List LToken

/-- `lexer.next()`: pop a buffered token, or run state functions until
one pushes tokens.  The loop is modelled with fuel; `none` means the
fuel ran out, which the totality theorem rules out. -/
def lexNextTok : Nat → LexerSt → Option (LToken × LexerSt)
  | 0, _ => none
  | fuel + 1, c =>
    match c.buf with
    | t :: rest => some (t, { c with buf := rest })
    | [] =>
      let (l', st', ts) := stepLex c.state c.lx
      lexNextTok fuel { lx := l', state := st', buf := ts }

theorem lexNextTok_total (fuel : Nat) : ∀ (c : LexerSt),
    c.lx.pos ≤ c.lx.input.length →
    (c.state = .tagContent → c.lx.pin = c.lx.pos) →
    meas c.state c.lx + 2 ≤ fuel →
    lexNextTok fuel c ≠ none := by
  induction fuel using Nat.strong_induction_on with
  | _ fuel ih =>
    intro c hc1 hc2 hc3
    cases fuel with
    | zero => exact absurd hc3 (by omega)
    | succ fuel' =>
      rcases c with ⟨lx, st, buf⟩
      dsimp only at hc1 hc2 hc3
      cases buf with
      | cons t rest =>
        simp only [lexNextTok]
        simp
      | nil =>
        simp only [lexNextTok]
        by_cases hT : st = .eofSt ∨ st = .errorSt
        · rcases hT with h | h <;> subst h
          · have h1 := stepLex_eofSt lx
            rcases hres : stepLex .eofSt lx with ⟨l1, st1, ts⟩
            rw [hres] at h1
            dsimp only at h1
            try dsimp only
            rcases ts with _ | ⟨u, ts'⟩
            · exact absurd h1.2.1 (by simp)
            · cases fuel' with
              | zero => exact absurd hc3 (by simp only [meas]; omega)
              | succ f2 =>
                simp only [lexNextTok]
                simp
          · have h1 := stepLex_errorSt lx
            rcases hres : stepLex .errorSt lx with ⟨l1, st1, ts⟩
            rw [hres] at h1
            dsimp only at h1
            try dsimp only
            rcases ts with _ | ⟨u, ts'⟩
            · exact absurd h1.2.1 (by simp)
            · cases fuel' with
              | zero => exact absurd hc3 (by simp only [meas]; omega)
              | succ f2 =>
                simp only [lexNextTok]
                simp
        · have hT1 : st ≠ .eofSt := fun hx => hT (.inl hx)
          have hT2 : st ≠ .errorSt := fun hx => hT (.inr hx)
          have hstep := stepLex_out st lx hT1 hT2 hc1 hc2
          rcases hres : stepLex st lx with ⟨l1, st1, ts⟩
          rw [hres] at hstep
          obtain ⟨si, sp, spin, sdisj, seof, serr, spure⟩ := hstep
          dsimp only at si sp spin sdisj seof serr spure
          try dsimp only
          cases ts with
          | cons t rest =>
            cases fuel' with
            | zero => exact absurd hc3 (by simp only [meas]; omega)
            | succ f2 =>
              simp only [lexNextTok]
              simp
          | nil =>
            have hT1' : st1 ≠ .eofSt := by
              intro hx
              obtain ⟨pre, u, hts, _, _⟩ := seof hx
              have := congrArg List.length hts
              simp at this
            have hT2' : st1 ≠ .errorSt := by
              intro hx
              obtain ⟨pre, u, hts, _, _⟩ := serr hx
              have := congrArg List.length hts
              simp at this
            rcases sdisj with h | h | hme
            · exact absurd h hT1'
            · exact absurd h hT2'
            · have bi : l1.input.length = lx.input.length := by rw [si]
              exact ih fuel' (by omega) ⟨l1, st1, []⟩ (by dsimp only; omega)
                (fun hx => spin hx) (by dsimp only; omega)

/-- C6: for every input, the token sequence produced by repeated calls to
the lexer's `next()` — the flat sequence of tokens pushed by the
state-function invocations, which the FIFO queue hands out in order —
consists of finitely many non-terminal tokens followed by one terminal
token, an EOF or an Error, after which every further invocation yields
exactly one more token of that same terminal type; `lexEOF` and
`lexError` each emit exactly their own token type and return themselves
(the lexer never leaves a terminal state), and `next()` itself always
terminates. -/
theorem lexer_stream_terminal :
    (∀ input : String, ∃ (N : Nat) (pre : List TokenT) (term : TokenT),
        (term = TokenT.eofT ∨ term = TokenT.error)
        ∧ (∀ u ∈ pre, u ≠ TokenT.eofT ∧ u ≠ TokenT.error)
        ∧ ∀ m : Nat, (lexTokens (N + m) (lxInit input, .file)).map LToken.typ
            = pre ++ term :: List.replicate m term)
    ∧ (∀ l : Lx, (stepLex .eofSt l).2.1 = .eofSt
        ∧ ((stepLex .eofSt l).2.2).map LToken.typ = [TokenT.eofT])
    ∧ (∀ l : Lx, (stepLex .errorSt l).2.1 = .errorSt
        ∧ ((stepLex .errorSt l).2.2).map LToken.typ = [TokenT.error])
    ∧ (∀ c : LexerSt, c.lx.pos ≤ c.lx.input.length →
        (c.state = .tagContent → c.lx.pin = c.lx.pos) →
        lexNextTok (meas c.state c.lx + 2) c ≠ none) := by
  refine ⟨?_, ?_, ?_, ?_⟩
  · intro input
    exact lexReach (meas .file (lxInit input)) (lxInit input) .file
      (by decide) (by decide) (Nat.zero_le _)
      (fun hx => absurd hx (by decide)) (le_refl _)
  · intro l
    exact ⟨(stepLex_eofSt l).1, (stepLex_eofSt l).2.1⟩
  · intro l
    exact ⟨(stepLex_errorSt l).1, (stepLex_errorSt l).2.1⟩
  · intro c hc1 hc2
    exact lexNextTok_total (meas c.state c.lx + 2) c hc1 hc2 (le_refl _)


end Sadbox
